import Mathlib

/-! LightCTR `util/matrix.h`: a shallow embedding of the dense matrix class.

The C++ class `Matrix` owns a `vector<float>` behind a pointer and two extents
`x_len`, `y_len`.  Here

* the float type is an arbitrary type `α` carrying exact arithmetic (a commutative
  ring, or a linear ordered field where the code compares magnitudes);
* the store is `Option (List α)`: `none` is the `NULL` pointer, `some l` the vector;
* a member function that mutates `this` (or the result matrix it is handed) returns
  the new value; `none` means that the call does not return normally (an `assert`
  fails, an access leaves the store, or a loop never ends);
* `size_t` extents are natural numbers.  Additions and multiplications are taken to
  stay in range; a subtraction that the source does not guard is reduced modulo
  `2 ^ 64` (`wrap`).
-/

namespace LightCTR

/-! ## Loops -/

/-- The loop `for (size_t i = start; i < bound; i += stride) body`, unrolled at most
`fuel` times from the current value `i`; `none` when the fuel is used up while the
loop test still holds. -/
def strideLoop {σ : Type} (body : Nat → σ → Option σ) (bound stride : Nat) :
    Nat → Nat → σ → Option σ
  | 0, i, st => if i < bound then none else some st
  | fuel + 1, i, st =>
    if i < bound then (body i st).bind (strideLoop body bound stride fuel (i + stride))
    else some st

/-- `for (size_t i = start; i < bound; i += stride) body`.  With `stride ≥ 1` the
loop test fails after at most `bound - start` rounds, so this fuel is exact; with
`stride = 0` and `start < bound` the source loops for ever and the result is `none`. -/
def forLoop {σ : Type} (start bound stride : Nat) (body : Nat → σ → Option σ) (st : σ) :
    Option σ :=
  strideLoop body bound stride (bound - start) start st

/-- Runs `f k`, `f (k+1)`, ..., `n` times in all (the counted form of a loop). -/
def countLoop {σ : Type} (f : Nat → σ → Option σ) : Nat → Nat → σ → Option σ
  | 0, _, st => some st
  | n + 1, k, st => (f k st).bind (countLoop f n (k + 1))

/-! ## Raw buffers -/

/-- Reduction of a `size_t` expression modulo `2 ^ 64`. -/
def wrap (z : Int) : Nat := (z % (2 ^ 64 : Int)).toNat

/-- Reads `*(data + off)`. -/
def load {α : Type} (l : List α) (off : Nat) : Option α := l[off]?

/-- Writes `*(data + off) = v`. -/
def store {α : Type} (l : List α) (off : Nat) (v : α) : Option (List α) :=
  if off < l.length then some (l.set off v) else none

/-- The `n` values starting at `data + off`. -/
def span {α : Type} (l : List α) (off n : Nat) : Option (List α) :=
  if off + n ≤ l.length then some ((l.drop off).take n) else none

/-- Writes the values `vs` back to `data + off`, `data + off + 1`, ... -/
def storeSpan {α : Type} (l : List α) (off : Nat) (vs : List α) : Option (List α) :=
  if off + vs.length ≤ l.length then some (l.take off ++ vs ++ l.drop (off + vs.length))
  else none

/-- Modelled from the spec: the vector kernel `avx_vecScalerAdd(a, b, dst, scale, n)`
of `common/avx.h`, which is not part of the sources at hand; per the spec it is the
scaled add `dst[t] = a[t] + b[t] * scale` over spans of length `n`. -/
def avx_vecScalerAdd {α : Type} [Add α] [Mul α] (a b : List α) (scale : α) : List α :=
  List.zipWith (fun x y => x + y * scale) a b

/-- Modelled from the spec: the vector kernel `avx_vecScale(src, dst, n, factor)` of
`common/avx.h`: `dst[t] = src[t] * factor`. -/
def avx_vecScale {α : Type} [Mul α] (src : List α) (factor : α) : List α :=
  src.map (fun x => x * factor)

/-- Modelled from the spec: the vector kernel `avx_dotProduct(a, b, n)` of
`common/avx.h`: the sum of `a[t] * b[t]` over `t < n`. -/
def avx_dotProduct {α : Type} [Add α] [Mul α] [Zero α] (a b : List α) : α :=
  (List.zipWith (fun x y => x * y) a b).sum

/-- The class `Matrix`: extents and the pointer to the backing vector. -/
structure Matrix (α : Type) where
  x_len : Nat
  y_len : Nat
  matrix : Option (List α)
deriving DecidableEq, Repr

namespace Matrix

variable {α : Type}

/-- `Matrix(x_len, y_len)`: a fresh vector, `resize`d (value-initialised) to
`x_len * y_len`. -/
def new [Zero α] (x_len y_len : Nat) : Matrix α :=
  ⟨x_len, y_len, some (List.replicate (x_len * y_len) 0)⟩

/-- `size()`. -/
def size (m : Matrix α) : Nat := m.x_len * m.y_len

/-- `pointer()`: asserts that the store is present. -/
def pointer (m : Matrix α) : Option (List α) := m.matrix

/-- `getEle(x, y)`: the offset of the returned pointer from `matrix->data()`. -/
def getEle (m : Matrix α) (x y : Nat) : Option Nat :=
  if x * m.y_len + y < m.size ∧ x < m.x_len then some (x * m.y_len + y) else none

/-- `*getEle(x, y)` read as a value. -/
def read (m : Matrix α) (x y : Nat) : Option α :=
  (m.getEle x y).bind fun off => m.matrix.bind fun l => load l off

/-- `zeroInit()`. -/
def zeroInit [Zero α] (m : Matrix α) : Option (Matrix α) :=
  m.matrix.bind fun l => some { m with matrix := some (List.replicate l.length 0) }

/-- Invariant I1 together with a present store. -/
def WF (m : Matrix α) : Prop :=
  ∃ l, m.matrix = some l ∧ l.length = m.x_len * m.y_len

/-- The value at row `i`, column `j` of the row-major store (`0` outside it). -/
def entry [Zero α] (m : Matrix α) (i j : Nat) : α :=
  (m.matrix.getD []).getD (i * m.y_len + j) 0

/-- `convolution(ansM, filter, padding, stride)`; `ansM = none` is the `NULL` result
argument, and the returned value is the matrix `ansM` points to afterwards.  With
`stride = 0` the source divides by zero and its loop never advances: the loop below
yields `none`. -/
def convolution [Zero α] [Add α] [Mul α]
    (self : Matrix α) (ansM : Option (Matrix α)) (filter : Matrix α)
    (padding stride : Nat) : Option (Matrix α) :=
  if filter.x_len ≤ self.x_len ∧ filter.y_len ≤ self.y_len then
    let new_x_len := (self.x_len - filter.x_len + 2 * padding) / stride + 1
    let new_y_len := (self.y_len - filter.y_len + 2 * padding) / stride + 1
    (ansM.getD (new new_x_len new_y_len)).zeroInit.bind fun ans0 =>
    ans0.matrix.bind fun r0 =>
    (forLoop 0 (self.x_len + 2 * padding - filter.x_len + 1) stride (fun i r =>
      forLoop 0 (self.y_len + 2 * padding - filter.y_len + 1) stride (fun j r =>
        (forLoop i (i + filter.x_len) 1 (fun xc tmp_vec =>
          forLoop j (j + filter.y_len) 1 (fun yc tmp_vec =>
            if xc < padding ∨ yc < padding ∨ xc ≥ padding + self.x_len
                ∨ yc ≥ padding + self.y_len then some tmp_vec
            else
              (self.read (xc - padding) (yc - padding)).bind fun v =>
              store tmp_vec ((xc - i) * filter.y_len + yc - j) v) tmp_vec)
          (List.replicate filter.size 0)).bind fun tmp_vec =>
        filter.pointer.bind fun f =>
        (span f 0 tmp_vec.length).bind fun fs =>
        (ans0.getEle (i / stride) (j / stride)).bind fun dst =>
        store r dst (avx_dotProduct tmp_vec fs)) r) r0).bind fun r =>
    some { ans0 with matrix := some r }
  else none

/-- The result cells `(i / stride, j / stride)` that the two outer loops of
`convolution` address, in the order in which they are written. -/
def convolution_cells (x_len y_len fx fy padding stride : Nat) : Option (List (Nat × Nat)) :=
  forLoop 0 (x_len + 2 * padding - fx + 1) stride (fun i acc =>
    forLoop 0 (y_len + 2 * padding - fy + 1) stride (fun j acc =>
      some (acc ++ [(i / stride, j / stride)])) acc) []

/-- The input zero-padded by `padding` on every side, as the claims word it:
`P[r][c] = A[r - padding][c - padding]` inside the unpadded region and `0` outside. -/
def padded [Zero α] (m : Matrix α) (padding r c : Nat) : α :=
  if padding ≤ r ∧ r < padding + m.x_len ∧ padding ≤ c ∧ c < padding + m.y_len
  then m.entry (r - padding) (c - padding) else 0

/-- Entry `(a, b)` of the forward convolution as the claims word it: the sum over
`u < fx`, `v < fy` of `P[a * stride + u][b * stride + v] * F[u][v]`, the filter
unflipped. -/
def conv_sum [CommRing α] (m filter : Matrix α)
    (padding stride a b : Nat) : α :=
  ∑ u ∈ Finset.range filter.x_len, ∑ v ∈ Finset.range filter.y_len,
    padded m padding (a * stride + u) (b * stride + v) * filter.entry u v

/-- `deconvolution_Delta(ansM, filter, padding, stride)` called on the output-side
gradient `self`; `ansM = none` is the `NULL` result argument and the returned value
is the matrix `ansM` points to afterwards.  The source computes `recover_y` from
`x_len` and `filter->x_len`, compares `j + yc` with `padding + recover_x`, and
addresses the result at `(i + xc, j + yc)`; all three are kept as written. -/
def deconvolution_Delta [Zero α] [Add α] [Mul α]
    (self : Matrix α) (ansM : Option (Matrix α)) (filter : Matrix α)
    (padding stride : Nat) : Option (Matrix α) :=
  let recover_x := wrap (((self.x_len : Int) - 1) * stride + filter.x_len - 2 * padding)
  let recover_y := wrap (((self.x_len : Int) - 1) * stride + filter.x_len - 2 * padding)
  (ansM.getD (new recover_x recover_y)).zeroInit.bind fun ans0 =>
  ans0.matrix.bind fun r0 =>
  (forLoop 0 (wrap ((recover_x : Int) + 2 * padding - filter.x_len + 1)) stride (fun i r =>
    forLoop 0 (wrap ((recover_y : Int) + 2 * padding - filter.y_len + 1)) stride (fun j r =>
      (self.read (i / stride) (j / stride)).bind fun tmp =>
      filter.pointer.bind fun f =>
      (span f 0 filter.size).bind fun fs =>
      let tmp_vec := avx_vecScale fs tmp
      forLoop 0 filter.x_len 1 (fun xc r =>
        forLoop 0 filter.y_len 1 (fun yc r =>
          if i + xc < padding ∨ j + yc < padding ∨ i + xc ≥ padding + recover_x
              ∨ j + yc ≥ padding + recover_x then some r
          else
            (ans0.getEle (i + xc) (j + yc)).bind fun dst =>
            (load r dst).bind fun old =>
            (load tmp_vec (xc * filter.y_len + yc)).bind fun v =>
            store r dst (old + v)) r) r) r) r0).bind fun r =>
  some { ans0 with matrix := some r }

/-- `deconvolution_Filter(filterDelta, input, padding, stride)` called on the
output-side gradient `self`; the returned value is `filterDelta` after the call.  The
source compares `j + yc` with `padding + recover_x` and reads the input at
`(i + xc, j + yc)`; both are kept as written. -/
def deconvolution_Filter [Zero α] [Add α] [Mul α]
    (self filterDelta input : Matrix α) (padding stride : Nat) : Option (Matrix α) :=
  let recover_x := input.x_len
  let recover_y := input.y_len
  forLoop 0 (wrap ((recover_x : Int) + 2 * padding - filterDelta.x_len + 1)) stride
    (fun i fd =>
    forLoop 0 (wrap ((recover_y : Int) + 2 * padding - filterDelta.y_len + 1)) stride
      (fun j fd =>
      (self.read (i / stride) (j / stride)).bind fun tmp =>
      (forLoop 0 filterDelta.x_len 1 (fun xc tmp_vec =>
        forLoop 0 filterDelta.y_len 1 (fun yc tmp_vec =>
          if i + xc < padding ∨ j + yc < padding ∨ i + xc ≥ padding + recover_x
              ∨ j + yc ≥ padding + recover_x then some tmp_vec
          else
            (input.read (i + xc) (j + yc)).bind fun v =>
            store tmp_vec (xc * filterDelta.y_len + yc) v) tmp_vec)
        (List.replicate filterDelta.size 0)).bind fun tmp_vec =>
      fd.pointer.bind fun w =>
      (span w 0 tmp_vec.length).bind fun ws =>
      (storeSpan w 0 (avx_vecScalerAdd ws tmp_vec tmp)).bind fun w' =>
      some { fd with matrix := some w' }) fd) filterDelta

/-- `transpose()`.  The copy loop is kept as written: `i` runs over `y_len`, `j` over
`x_len`, and the element is read with `getEle(i, j)`. -/
def transpose [Zero α] (self : Matrix α) : Option (Matrix α) :=
  if self.x_len = 1 ∨ self.y_len = 1 then
    some { self with x_len := self.y_len, y_len := self.x_len }
  else
    let newM : Matrix α := new self.y_len self.x_len
    newM.matrix.bind fun n0 =>
    (forLoop 0 self.y_len 1 (fun i n =>
      forLoop 0 self.x_len 1 (fun j n =>
        (self.read i j).bind fun v =>
        (newM.getEle i j).bind fun dst =>
        store n dst v) n) n0).bind fun n =>
    self.matrix.bind fun _ =>
    some ⟨self.y_len, self.x_len, some n⟩

/-- `swap(*(data + p), *(data + q))`. -/
def swapEle (m : Matrix α) (p q : Nat) : Option (Matrix α) :=
  m.matrix.bind fun l =>
  (load l p).bind fun vp =>
  (load l q).bind fun vq =>
  (store l p vq).bind fun l1 =>
  (store l1 q vp).bind fun l2 =>
  some { m with matrix := some l2 }

/-- `rot180()`. -/
def rot180 (self : Matrix α) : Option (Matrix α) :=
  if self.x_len = self.y_len then
    if self.x_len = 1 then some self
    else
      forLoop 0 (self.x_len / 2) 1 (fun i m =>
        forLoop 0 self.y_len 1 (fun j m =>
          let new_i := self.x_len - 1 - i
          let new_j := self.y_len - 1 - j
          (m.getEle i j).bind fun p =>
          (m.getEle new_i new_j).bind fun q =>
          swapEle m p q) m) self
  else none

/-- The iterator loop of `checkConvergence`: `it` runs over this store, `it2` over the
other one; `it2` leaving its store is undefined behaviour. -/
def convergeLoop [LinearOrderedField α] : List α → List α → Option Bool
  | [], _ => some true
  | _ :: _, [] => none
  | x :: xs, y :: ys => if |x - y| > 1e-4 then some false else convergeLoop xs ys

/-- `checkConvergence(another)`. -/
def checkConvergence [LinearOrderedField α] (self another : Matrix α) : Option Bool :=
  if self.size = another.size then
    self.matrix.bind fun a =>
    another.pointer.bind fun b =>
    convergeLoop a b
  else none

/-- The store position whose original value stands at position `t` once `rot180` has
swapped the first `T` positions with the last `T` positions of a store of `N` values. -/
def rotIdx (N T t : Nat) : Nat :=
  if t < T ∨ (N - T ≤ t ∧ t < N) then N - 1 - t else t

/-- `clipping(clip_threshold)`. -/
def clipping [LinearOrderedField α] (self : Matrix α) (clip_threshold : α) :
    Option (Matrix α) :=
  if clip_threshold > 0 then
    self.matrix.bind fun l =>
    some { self with matrix := some (l.map fun e =>
      if e < -clip_threshold then -clip_threshold
      else if e > clip_threshold then clip_threshold
      else e) }
  else none

/-- `scale(scale_fac)`. -/
def scale [Mul α] (self : Matrix α) (scale_fac : α) : Option (Matrix α) :=
  self.matrix.bind fun l =>
  (span l 0 self.size).bind fun xs =>
  (storeSpan l 0 (avx_vecScale xs scale_fac)).bind fun l1 =>
  some { self with matrix := some l1 }

end Matrix

/-! ## Loop lemmas -/

theorem strideLoop_eq_countLoop {σ : Type} (body : Nat → σ → Option σ)
    (start bound stride n : Nat)
    (hle : bound ≤ start + n * stride) (hlt : ∀ k, k < n → start + k * stride < bound) :
    ∀ (fuel k : Nat) (st : σ), k ≤ n → n - k ≤ fuel →
      strideLoop body bound stride fuel (start + k * stride) st
        = countLoop (fun k => body (start + k * stride)) (n - k) k st := by
  intro fuel
  induction fuel with
  | zero =>
    intro k st hk hf
    have hkn : k = n := by omega
    subst hkn
    have : ¬ (start + k * stride < bound) := by omega
    simp [strideLoop, countLoop, this]
  | succ fuel ih =>
    intro k st hk hf
    by_cases hkn : k = n
    · subst hkn
      have : ¬ (start + k * stride < bound) := by omega
      simp [strideLoop, countLoop, this]
    · have hk' : k < n := by omega
      have hb := hlt k hk'
      have e : n - k = (n - (k + 1)) + 1 := by omega
      rw [e]
      simp only [strideLoop, countLoop, hb, if_true]
      congr 1
      funext st'
      have e2 : start + k * stride + stride = start + (k + 1) * stride := by ring
      rw [e2]
      exact ih (k + 1) st' (by omega) (by omega)

theorem forLoop_eq_countLoop {σ : Type} (body : Nat → σ → Option σ)
    (start bound stride : Nat) (hs : 1 ≤ stride) (n : Nat)
    (hle : bound ≤ start + n * stride) (hlt : ∀ k, k < n → start + k * stride < bound)
    (st : σ) :
    forLoop start bound stride body st
      = countLoop (fun k => body (start + k * stride)) n 0 st := by
  have hn : n ≤ bound - start := by
    rcases Nat.eq_zero_or_pos n with h0 | hpos
    · omega
    · have h1 := hlt (n - 1) (by omega)
      have h2 : n - 1 ≤ (n - 1) * stride := Nat.le_mul_of_pos_right _ hs
      omega
  have h := strideLoop_eq_countLoop body start bound stride n hle hlt (bound - start) 0 st
    (Nat.zero_le _) (by omega)
  simpa [forLoop] using h

theorem countLoop_inv {σ : Type} (f : Nat → σ → Option σ) (Inv : Nat → σ → Prop) (n : Nat)
    (hstep : ∀ k st, k < n → Inv k st → ∃ st', f k st = some st' ∧ Inv (k + 1) st') :
    ∀ (m k : Nat) (st : σ), k + m = n → Inv k st →
      ∃ st', countLoop f m k st = some st' ∧ Inv n st' := by
  intro m
  induction m with
  | zero =>
    intro k st hk hinv
    have : k = n := by omega
    subst this
    exact ⟨st, rfl, hinv⟩
  | succ m ih =>
    intro k st hk hinv
    obtain ⟨st1, h1, hinv1⟩ := hstep k st (by omega) hinv
    obtain ⟨st2, h2, hinv2⟩ := ih (k + 1) st1 (by omega) hinv1
    exact ⟨st2, by simp [countLoop, h1, h2], hinv2⟩

/-! ## Index arithmetic and buffers -/

theorem idx_lt {i j m n : Nat} (hi : i < m) (hj : j < n) : i * n + j < m * n := by
  have h : (i + 1) * n ≤ m * n := Nat.mul_le_mul_right n hi
  have e : (i + 1) * n = i * n + n := by ring
  omega

theorem row_iff {i i' j p : Nat} (hj : j < p) :
    (i * p ≤ i' * p + j ∧ i' * p + j < i * p + p) ↔ i' = i := by
  constructor
  · rintro ⟨h1, h2⟩
    by_contra hne
    rcases Nat.lt_or_gt_of_ne hne with h | h
    · have h3 : (i' + 1) * p ≤ i * p := Nat.mul_le_mul_right p h
      have e : (i' + 1) * p = i' * p + p := by ring
      omega
    · have h3 : (i + 1) * p ≤ i' * p := Nat.mul_le_mul_right p h
      have e : (i + 1) * p = i * p + p := by ring
      omega
  · rintro rfl
    omega

theorem getD_span {α : Type} (d : α) (l : List α) (off n t : Nat)
    (ht : t < n) : ((l.drop off).take n).getD t d = l.getD (off + t) d := by
  simp [List.getD_eq_getElem?_getD, List.getElem?_take, ht, List.getElem?_drop]

theorem forLoop_unit {σ : Type} (body : Nat → σ → Option σ) (n : Nat) (st : σ) :
    forLoop 0 n 1 body st = countLoop body n 0 st := by
  have h := forLoop_eq_countLoop body 0 n 1 (le_refl 1) n (by omega) (by intro k hk; omega) st
  simpa using h

theorem load_eq_getD {α : Type} (d : α) (l : List α) (t : Nat) (h : t < l.length) :
    load l t = some (l.getD t d) := by
  simp [load, List.getD_eq_getElem?_getD, List.getElem?_eq_getElem h]

theorem getD_replicate_zero {α : Type} [Zero α] (n t : Nat) :
    (List.replicate n (0 : α)).getD t 0 = 0 := by
  simp only [List.getD_eq_getElem?_getD, List.getElem?_replicate]
  split <;> rfl

namespace Matrix

variable {α : Type}

theorem getEle_eq (m : Matrix α) {i j : Nat} (hi : i < m.x_len) (hj : j < m.y_len) :
    m.getEle i j = some (i * m.y_len + j) := by
  have h : i * m.y_len + j < m.size := idx_lt hi hj
  simp [getEle, h, hi]

theorem entry_eq_getD [Zero α] (m : Matrix α) (a : List α) (ha : m.matrix = some a)
    (i j : Nat) : m.entry i j = a.getD (i * m.y_len + j) 0 := by
  simp [entry, ha]

theorem read_eq_entry [Zero α] (m : Matrix α) (hm : m.WF) {i j : Nat} (hi : i < m.x_len)
    (hj : j < m.y_len) : m.read i j = some (m.entry i j) := by
  obtain ⟨l, hl, hlen⟩ := hm
  have h : i * m.y_len + j < l.length := by rw [hlen]; exact idx_lt hi hj
  simp [read, getEle_eq m hi hj, hl, entry, load_eq_getD 0 l _ h]

theorem zeroInit_eq [Zero α] (m : Matrix α) (hm : m.WF) :
    m.zeroInit = some ⟨m.x_len, m.y_len, some (List.replicate (m.x_len * m.y_len) 0)⟩ := by
  obtain ⟨l, hl, hlen⟩ := hm
  simp [zeroInit, hl, hlen]

theorem new_WF [Zero α] (x y : Nat) : (new x y : Matrix α).WF :=
  ⟨_, rfl, by simp [new]⟩

end Matrix

theorem sum_zipWith_mul {α : Type} [CommRing α] :
    ∀ (l1 l2 : List α), l1.length = l2.length →
      (List.zipWith (fun x y => x * y) l1 l2).sum
        = ∑ t ∈ Finset.range l1.length, l1.getD t 0 * l2.getD t 0
  | [], _, _ => by simp
  | _ :: _, [], h => by simp at h
  | x :: xs, y :: ys, h => by
    have ih := sum_zipWith_mul xs ys (by simpa using h)
    simp only [List.zipWith_cons_cons, List.sum_cons, List.length_cons, ih,
      Finset.sum_range_succ', List.getD_cons_succ, List.getD_cons_zero]
    ring

theorem sum_range_mul {α : Type} [CommRing α] (g : Nat → α) (m n : Nat) :
    ∑ t ∈ Finset.range (m * n), g t
      = ∑ u ∈ Finset.range m, ∑ v ∈ Finset.range n, g (u * n + v) := by
  induction m with
  | zero => simp
  | succ m ih =>
    have e : (m + 1) * n = m * n + n := by ring
    rw [e, Finset.sum_range_add, ih, Finset.sum_range_succ]

theorem getD_set_eq {α : Type} (d : α) (l : List α) (i t : Nat) (v : α) (hi : i < l.length) :
    (l.set i v).getD t d = if t = i then v else l.getD t d := by
  simp only [List.getD_eq_getElem?_getD, List.getElem?_set]
  by_cases h : i = t
  · subst h
    simp [hi]
  · rw [if_neg h, if_neg (Ne.symm h)]

namespace Matrix

variable {α : Type}

/-- The loop over `yc` that gathers one row of the receptive field in `convolution`. -/
theorem convolution_patch_row [Zero α] (self filter : Matrix α) (a : List α)
    (ha : self.matrix = some a) (hla : a.length = self.x_len * self.y_len)
    (padding i j u : Nat) (hu : u < filter.x_len)
    (tv : List α) (htv : tv.length = filter.x_len * filter.y_len) :
    ∃ tv', forLoop j (j + filter.y_len) 1 (fun yc tmp_vec =>
          if i + u < padding ∨ yc < padding ∨ i + u ≥ padding + self.x_len
              ∨ yc ≥ padding + self.y_len then some tmp_vec
          else
            (self.read (i + u - padding) (yc - padding)).bind fun v =>
            store tmp_vec ((i + u - i) * filter.y_len + yc - j) v) tv = some tv'
      ∧ tv'.length = filter.x_len * filter.y_len
      ∧ ∀ t, tv'.getD t 0
          = if (u * filter.y_len ≤ t ∧ t < u * filter.y_len + filter.y_len)
              ∧ (padding ≤ i + u ∧ i + u < padding + self.x_len
                ∧ padding ≤ j + (t - u * filter.y_len)
                ∧ j + (t - u * filter.y_len) < padding + self.y_len)
            then self.entry (i + u - padding) (j + (t - u * filter.y_len) - padding)
            else tv.getD t 0 := by
  rw [forLoop_eq_countLoop _ j (j + filter.y_len) 1 (le_refl 1) filter.y_len (by omega)
    (by intro k hk; omega)]
  refine countLoop_inv _ (fun (v : Nat) (tv' : List α) =>
      tv'.length = filter.x_len * filter.y_len
      ∧ ∀ t, tv'.getD t 0
          = if (u * filter.y_len ≤ t ∧ t < u * filter.y_len + v)
              ∧ (padding ≤ i + u ∧ i + u < padding + self.x_len
                ∧ padding ≤ j + (t - u * filter.y_len)
                ∧ j + (t - u * filter.y_len) < padding + self.y_len)
            then self.entry (i + u - padding) (j + (t - u * filter.y_len) - padding)
            else tv.getD t 0) filter.y_len ?_ filter.y_len 0 tv (by omega) ⟨htv, ?_⟩
  · rintro v tv' hv ⟨hlen, hval⟩
    simp only [mul_one]
    by_cases hskip : i + u < padding ∨ j + v < padding ∨ i + u ≥ padding + self.x_len
        ∨ j + v ≥ padding + self.y_len
    · refine ⟨tv', by rw [if_pos hskip], hlen, ?_⟩
      intro t
      rw [hval t]
      by_cases ht : t = u * filter.y_len + v
      · subst ht
        rw [if_neg (by omega), if_neg]
        rintro ⟨_, h1, h2, h3, h4⟩
        have e : u * filter.y_len + v - u * filter.y_len = v := by omega
        rw [e] at h3 h4
        omega
      · have hiff : (u * filter.y_len ≤ t ∧ t < u * filter.y_len + v)
            ↔ (u * filter.y_len ≤ t ∧ t < u * filter.y_len + (v + 1)) := by omega
        simp only [hiff]
    · have h1 : padding ≤ i + u := by omega
      have h2 : i + u < padding + self.x_len := by omega
      have h3 : padding ≤ j + v := by omega
      have h4 : j + v < padding + self.y_len := by omega
      have hg : self.read (i + u - padding) (j + v - padding)
          = some (a.getD ((i + u - padding) * self.y_len + (j + v - padding)) 0) := by
        rw [read_eq_entry self ⟨a, ha, hla⟩ (by omega) (by omega), entry_eq_getD self a ha]
      have hidx : (i + u - i) * filter.y_len + (j + v) - j = u * filter.y_len + v := by
        have e : i + u - i = u := by omega
        rw [e]; omega
      have hdst : u * filter.y_len + v < tv'.length := by
        rw [hlen]; exact idx_lt hu hv
      refine ⟨tv'.set (u * filter.y_len + v)
          (a.getD ((i + u - padding) * self.y_len + (j + v - padding)) 0), ?_, ?_, ?_⟩
      · rw [if_neg hskip, hg, Option.some_bind, hidx, store, if_pos hdst]
      · simp [hlen]
      · intro t
        rw [getD_set_eq 0 _ _ _ _ hdst]
        by_cases ht : t = u * filter.y_len + v
        · subst ht
          have e : u * filter.y_len + v - u * filter.y_len = v := by omega
          rw [if_pos rfl, if_pos, e, entry_eq_getD self a ha]
          rw [e]
          exact ⟨by omega, h1, h2, h3, h4⟩
        · rw [if_neg ht, hval t]
          have hiff : (u * filter.y_len ≤ t ∧ t < u * filter.y_len + v)
              ↔ (u * filter.y_len ≤ t ∧ t < u * filter.y_len + (v + 1)) := by omega
          simp only [hiff]
  · intro t
    rw [if_neg]
    rintro ⟨h, _⟩
    omega

end Matrix

namespace Matrix

variable {α : Type}

/-- The two loops over `xc`, `yc` of `convolution`: the scratch buffer receives the
receptive field at `(i, j)` of the zero-padded input. -/
theorem convolution_patch [Zero α] (self filter : Matrix α) (a : List α)
    (ha : self.matrix = some a) (hla : a.length = self.x_len * self.y_len)
    (padding i j : Nat) :
    ∃ tv, forLoop i (i + filter.x_len) 1 (fun xc tmp_vec =>
          forLoop j (j + filter.y_len) 1 (fun yc tmp_vec =>
            if xc < padding ∨ yc < padding ∨ xc ≥ padding + self.x_len
                ∨ yc ≥ padding + self.y_len then some tmp_vec
            else
              (self.read (xc - padding) (yc - padding)).bind fun v =>
              store tmp_vec ((xc - i) * filter.y_len + yc - j) v) tmp_vec)
          (List.replicate filter.size 0) = some tv
      ∧ tv.length = filter.x_len * filter.y_len
      ∧ ∀ u v, u < filter.x_len → v < filter.y_len →
          tv.getD (u * filter.y_len + v) 0 = padded self padding (i + u) (j + v) := by
  rw [forLoop_eq_countLoop _ i (i + filter.x_len) 1 (le_refl 1) filter.x_len (by omega)
    (by intro k hk; omega)]
  have key := countLoop_inv (fun k => (fun xc tmp_vec =>
          forLoop j (j + filter.y_len) 1 (fun yc tmp_vec =>
            if xc < padding ∨ yc < padding ∨ xc ≥ padding + self.x_len
                ∨ yc ≥ padding + self.y_len then some tmp_vec
            else
              (self.read (xc - padding) (yc - padding)).bind fun v =>
              store tmp_vec ((xc - i) * filter.y_len + yc - j) v) tmp_vec) (i + k * 1))
    (fun (u : Nat) (tv : List α) => tv.length = filter.x_len * filter.y_len
      ∧ ∀ u' v, v < filter.y_len → tv.getD (u' * filter.y_len + v) 0
          = if u' < u then padded self padding (i + u') (j + v) else 0)
    filter.x_len ?_ filter.x_len 0 (List.replicate filter.size 0) (by omega)
    ⟨by simp [size], ?_⟩
  · obtain ⟨tv, h1, h2, h3⟩ := key
    refine ⟨tv, h1, h2, ?_⟩
    intro u v hu hv
    rw [h3 u v hv, if_pos hu]
  · rintro u tv hu ⟨hlen, hval⟩
    simp only [mul_one]
    obtain ⟨tv', h1, h2, h3⟩ :=
      convolution_patch_row self filter a ha hla padding i j u hu tv hlen
    refine ⟨tv', h1, h2, ?_⟩
    intro u' v hv
    rw [h3 (u' * filter.y_len + v), hval u' v hv]
    by_cases huu : u' = u
    · subst huu
      have hc : u' * filter.y_len ≤ u' * filter.y_len + v
          ∧ u' * filter.y_len + v < u' * filter.y_len + filter.y_len := by omega
      have e : u' * filter.y_len + v - u' * filter.y_len = v := by omega
      rw [if_neg (lt_irrefl _), if_pos (Nat.lt_succ_self _), e]
      unfold padded
      by_cases hin : padding ≤ i + u' ∧ i + u' < padding + self.x_len
          ∧ padding ≤ j + v ∧ j + v < padding + self.y_len
      · rw [if_pos ⟨hc, hin⟩, if_pos hin]
      · rw [if_neg (fun h => hin h.2), if_neg hin]
    · have hc : ¬ (u * filter.y_len ≤ u' * filter.y_len + v
          ∧ u' * filter.y_len + v < u * filter.y_len + filter.y_len) :=
        fun h => huu ((row_iff hv).1 h)
      rw [if_neg (fun h => hc h.1)]
      by_cases hlt : u' < u
      · rw [if_pos hlt, if_pos (by omega)]
      · rw [if_neg hlt, if_neg (by omega)]
  · intro u' v _
    rw [getD_replicate_zero, if_neg (Nat.not_lt_zero _)]

end Matrix

theorem stride_count (D s : Nat) (hs : 1 ≤ s) :
    D + 1 ≤ 0 + (D / s + 1) * s ∧ ∀ k, k < D / s + 1 → 0 + k * s < D + 1 := by
  have h1 := Nat.div_add_mod D s
  have h2 : D % s < s := Nat.mod_lt _ (by omega)
  have h3 : s * (D / s) = D / s * s := Nat.mul_comm _ _
  have h4 : (D / s + 1) * s = D / s * s + s := by ring
  refine ⟨by omega, ?_⟩
  intro k hk
  have h5 : k * s ≤ D / s * s := Nat.mul_le_mul_right s (by omega)
  omega

namespace Matrix

variable {α : Type}

/-- One round of the body of the outer loops of `convolution`: the gathered patch is
multiplied with the flattened filter and the sum is written to the result cell. -/
theorem convolution_cell [CommRing α] (self filter ans0 : Matrix α) (a f : List α)
    (ha : self.matrix = some a) (hla : a.length = self.x_len * self.y_len)
    (hf : filter.matrix = some f) (hlf : f.length = filter.x_len * filter.y_len)
    (padding i j ci cj dst : Nat) (r : List α)
    (hdst : ans0.getEle ci cj = some dst) (hr : dst < r.length) :
    ((forLoop i (i + filter.x_len) 1 (fun xc tmp_vec =>
          forLoop j (j + filter.y_len) 1 (fun yc tmp_vec =>
            if xc < padding ∨ yc < padding ∨ xc ≥ padding + self.x_len
                ∨ yc ≥ padding + self.y_len then some tmp_vec
            else
              (self.read (xc - padding) (yc - padding)).bind fun v =>
              store tmp_vec ((xc - i) * filter.y_len + yc - j) v) tmp_vec)
          (List.replicate filter.size 0)).bind fun tmp_vec =>
        filter.pointer.bind fun f =>
        (span f 0 tmp_vec.length).bind fun fs =>
        (ans0.getEle ci cj).bind fun dst =>
        store r dst (avx_dotProduct tmp_vec fs))
      = some (r.set dst (∑ u ∈ Finset.range filter.x_len, ∑ v ∈ Finset.range filter.y_len,
          padded self padding (i + u) (j + v) * filter.entry u v)) := by
  obtain ⟨tv, h1, h2, h3⟩ := convolution_patch self filter a ha hla padding i j
  rw [h1]
  have hsp : span f 0 tv.length = some f := by
    simp [span, h2, hlf]
  simp only [Option.some_bind, pointer, hf, hsp, hdst, store, if_pos hr]
  congr 2
  rw [avx_dotProduct, sum_zipWith_mul tv f (by rw [h2, hlf]), h2, sum_range_mul]
  refine Finset.sum_congr rfl (fun u hu => Finset.sum_congr rfl (fun v hv => ?_))
  rw [h3 u v (Finset.mem_range.1 hu) (Finset.mem_range.1 hv), entry_eq_getD filter f hf]

end Matrix

namespace Matrix

variable {α : Type}

/-- The loop over `j` of `convolution` for a fixed row of the result. -/
theorem convolution_row [CommRing α] (self filter ans0 : Matrix α) (a f : List α)
    (ha : self.matrix = some a) (hla : a.length = self.x_len * self.y_len)
    (hf : filter.matrix = some f) (hlf : f.length = filter.x_len * filter.y_len)
    (padding stride : Nat) (hs : 1 ≤ stride) (D ca : Nat)
    (hca : ca < ans0.x_len) (hay : ans0.y_len = D / stride + 1)
    (r : List α) (hr : r.length = ans0.x_len * ans0.y_len) :
    ∃ r', forLoop 0 (D + 1) stride (fun j r =>
        (forLoop (ca * stride) (ca * stride + filter.x_len) 1 (fun xc tmp_vec =>
          forLoop j (j + filter.y_len) 1 (fun yc tmp_vec =>
            if xc < padding ∨ yc < padding ∨ xc ≥ padding + self.x_len
                ∨ yc ≥ padding + self.y_len then some tmp_vec
            else
              (self.read (xc - padding) (yc - padding)).bind fun v =>
              store tmp_vec ((xc - ca * stride) * filter.y_len + yc - j) v) tmp_vec)
          (List.replicate filter.size 0)).bind fun tmp_vec =>
        filter.pointer.bind fun f =>
        (span f 0 tmp_vec.length).bind fun fs =>
        (ans0.getEle ca (j / stride)).bind fun dst =>
        store r dst (avx_dotProduct tmp_vec fs)) r = some r'
      ∧ r'.length = ans0.x_len * ans0.y_len
      ∧ ∀ t, r'.getD t 0
          = if ca * ans0.y_len ≤ t ∧ t < ca * ans0.y_len + ans0.y_len
            then conv_sum self filter padding stride ca (t - ca * ans0.y_len)
            else r.getD t 0 := by
  obtain ⟨hc1, hc2⟩ := stride_count D stride hs
  rw [forLoop_eq_countLoop _ 0 (D + 1) stride hs (D / stride + 1) hc1 hc2]
  have key := countLoop_inv (fun k => (fun j r =>
        (forLoop (ca * stride) (ca * stride + filter.x_len) 1 (fun xc tmp_vec =>
          forLoop j (j + filter.y_len) 1 (fun yc tmp_vec =>
            if xc < padding ∨ yc < padding ∨ xc ≥ padding + self.x_len
                ∨ yc ≥ padding + self.y_len then some tmp_vec
            else
              (self.read (xc - padding) (yc - padding)).bind fun v =>
              store tmp_vec ((xc - ca * stride) * filter.y_len + yc - j) v) tmp_vec)
          (List.replicate filter.size 0)).bind fun tmp_vec =>
        filter.pointer.bind fun f =>
        (span f 0 tmp_vec.length).bind fun fs =>
        (ans0.getEle ca (j / stride)).bind fun dst =>
        store r dst (avx_dotProduct tmp_vec fs)) (0 + k * stride))
    (fun (cb : Nat) (r' : List α) => r'.length = ans0.x_len * ans0.y_len
      ∧ ∀ t, r'.getD t 0
          = if ca * ans0.y_len ≤ t ∧ t < ca * ans0.y_len + cb
            then conv_sum self filter padding stride ca (t - ca * ans0.y_len)
            else r.getD t 0)
    (D / stride + 1) ?_ (D / stride + 1) 0 r (by omega) ⟨hr, ?_⟩
  · obtain ⟨r', h1, h2, h3⟩ := key
    refine ⟨r', h1, h2, ?_⟩
    intro t
    rw [h3 t, hay]
  · rintro cb r' hcb ⟨hlen, hval⟩
    have hdiv : (0 + cb * stride) / stride = cb := by
      rw [Nat.zero_add, Nat.mul_div_cancel _ (by omega : 0 < stride)]
    have hg : ans0.getEle ca cb = some (ca * ans0.y_len + cb) :=
      getEle_eq ans0 hca (by omega)
    have hin : ca * ans0.y_len + cb < r'.length := by
      rw [hlen]; exact idx_lt hca (by omega)
    refine ⟨r'.set (ca * ans0.y_len + cb) (conv_sum self filter padding stride ca cb),
      ?_, ?_, ?_⟩
    · simp only [hdiv]
      rw [convolution_cell self filter ans0 a f ha hla hf hlf padding (ca * stride)
        (0 + cb * stride) ca cb _ r' hg hin]
      simp only [conv_sum, Nat.zero_add]
    · simp [hlen]
    · intro t
      rw [getD_set_eq 0 _ _ _ _ hin]
      by_cases ht : t = ca * ans0.y_len + cb
      · subst ht
        have e : ca * ans0.y_len + cb - ca * ans0.y_len = cb := by omega
        rw [if_pos rfl, if_pos (by omega), e]
      · rw [if_neg ht, hval t]
        have hiff : (ca * ans0.y_len ≤ t ∧ t < ca * ans0.y_len + cb)
            ↔ (ca * ans0.y_len ≤ t ∧ t < ca * ans0.y_len + (cb + 1)) := by omega
        simp only [hiff]
  · intro t
    rw [if_neg (by omega)]

end Matrix

namespace Matrix

variable {α : Type}

/-- The forward convolution with no result supplied: it completes, the result has the
shape `((x - fx + 2p) / s + 1) × ((y - fy + 2p) / s + 1)`, and its store holds
`conv_sum` at every cell. -/
theorem convolution_result [CommRing α] (A F : Matrix α) (padding stride : Nat)
    (hA : A.WF) (hF : F.WF) (hfx : F.x_len ≤ A.x_len) (hfy : F.y_len ≤ A.y_len)
    (hs : 1 ≤ stride) :
    ∃ r, A.convolution none F padding stride
        = some ⟨(A.x_len - F.x_len + 2 * padding) / stride + 1,
            (A.y_len - F.y_len + 2 * padding) / stride + 1, some r⟩
      ∧ r.length = ((A.x_len - F.x_len + 2 * padding) / stride + 1)
          * ((A.y_len - F.y_len + 2 * padding) / stride + 1)
      ∧ ∀ ca cb, ca < (A.x_len - F.x_len + 2 * padding) / stride + 1 →
          cb < (A.y_len - F.y_len + 2 * padding) / stride + 1 →
          r.getD (ca * ((A.y_len - F.y_len + 2 * padding) / stride + 1) + cb) 0
            = conv_sum A F padding stride ca cb := by
  obtain ⟨a, ha, hla⟩ := hA
  obtain ⟨f, hf, hlf⟩ := hF
  generalize hDx : A.x_len - F.x_len + 2 * padding = Dx
  generalize hDy : A.y_len - F.y_len + 2 * padding = Dy
  have hbx : A.x_len + 2 * padding - F.x_len + 1 = Dx + 1 := by omega
  have hby : A.y_len + 2 * padding - F.y_len + 1 = Dy + 1 := by omega
  have hspos : 0 < stride := by omega
  obtain ⟨hc1, hc2⟩ := stride_count Dx stride hs
  have hloop : ∃ r, forLoop 0 (Dx + 1) stride (fun i r =>
      forLoop 0 (Dy + 1) stride (fun j r =>
        (forLoop i (i + F.x_len) 1 (fun xc tmp_vec =>
          forLoop j (j + F.y_len) 1 (fun yc tmp_vec =>
            if xc < padding ∨ yc < padding ∨ xc ≥ padding + A.x_len
                ∨ yc ≥ padding + A.y_len then some tmp_vec
            else
              (A.read (xc - padding) (yc - padding)).bind fun v =>
              store tmp_vec ((xc - i) * F.y_len + yc - j) v) tmp_vec)
          (List.replicate F.size 0)).bind fun tmp_vec =>
        F.pointer.bind fun f =>
        (span f 0 tmp_vec.length).bind fun fs =>
        ((⟨Dx / stride + 1, Dy / stride + 1,
            some (List.replicate ((Dx / stride + 1) * (Dy / stride + 1)) 0)⟩ : Matrix α).getEle
            (i / stride) (j / stride)).bind fun dst =>
        store r dst (avx_dotProduct tmp_vec fs)) r)
        (List.replicate ((Dx / stride + 1) * (Dy / stride + 1)) 0) = some r
      ∧ r.length = (Dx / stride + 1) * (Dy / stride + 1)
      ∧ ∀ ca cb, cb < Dy / stride + 1 → r.getD (ca * (Dy / stride + 1) + cb) 0
          = if ca < Dx / stride + 1 then conv_sum A F padding stride ca cb else 0 := by
    rw [forLoop_eq_countLoop _ 0 (Dx + 1) stride hs (Dx / stride + 1) hc1 hc2]
    refine countLoop_inv _ (fun (ci : Nat) (r : List α) =>
        r.length = (Dx / stride + 1) * (Dy / stride + 1)
        ∧ ∀ ca cb, cb < Dy / stride + 1 → r.getD (ca * (Dy / stride + 1) + cb) 0
            = if ca < ci then conv_sum A F padding stride ca cb else 0)
      (Dx / stride + 1) ?_ (Dx / stride + 1) 0 _ (by omega) ⟨by simp, ?_⟩
    · rintro ci r hci ⟨hlen, hval⟩
      simp only [Nat.zero_add, Nat.mul_div_cancel _ hspos]
      obtain ⟨r', h1, h2, h3⟩ := convolution_row A F
        (⟨Dx / stride + 1, Dy / stride + 1,
          some (List.replicate ((Dx / stride + 1) * (Dy / stride + 1)) 0)⟩ : Matrix α)
        a f ha hla hf hlf padding stride hs Dy ci hci rfl r hlen
      refine ⟨r', h1, h2, ?_⟩
      intro ca cb hcb
      rw [h3 (ca * (Dy / stride + 1) + cb), hval ca cb hcb]
      by_cases hcc : ca = ci
      · subst hcc
        have hc : ca * (Dy / stride + 1) ≤ ca * (Dy / stride + 1) + cb
            ∧ ca * (Dy / stride + 1) + cb < ca * (Dy / stride + 1) + (Dy / stride + 1) := by
          omega
        have e : ca * (Dy / stride + 1) + cb - ca * (Dy / stride + 1) = cb := by omega
        rw [if_pos hc, if_pos (Nat.lt_succ_self _), e]
      · have hc : ¬ (ci * (Dy / stride + 1) ≤ ca * (Dy / stride + 1) + cb
            ∧ ca * (Dy / stride + 1) + cb < ci * (Dy / stride + 1) + (Dy / stride + 1)) :=
          fun h => hcc ((row_iff hcb).1 h)
        rw [if_neg hc]
        by_cases hlt : ca < ci
        · rw [if_pos hlt, if_pos (by omega)]
        · rw [if_neg hlt, if_neg (by omega)]
    · intro ca cb _
      rw [getD_replicate_zero, if_neg (Nat.not_lt_zero _)]
  obtain ⟨r, hr, hlen, hval⟩ := hloop
  refine ⟨r, ?_, hlen, ?_⟩
  · unfold convolution
    rw [if_pos ⟨hfx, hfy⟩]
    simp only [Option.getD_none, hDx, hDy, hbx, hby]
    rw [zeroInit_eq _ (new_WF _ _)]
    simp only [Option.some_bind, new, hr]
  · intro ca cb hca hcb
    rw [hval ca cb hcb, if_pos hca]

end Matrix

theorem countLoop_trace {β : Type} (g : Nat → β) (n : Nat) (acc : List β) :
    countLoop (fun k acc => some (acc ++ [g k])) n 0 acc
      = some (acc ++ (List.range n).map g) := by
  obtain ⟨st, h1, h2⟩ := countLoop_inv (fun k acc => some (acc ++ [g k]))
    (fun (k : Nat) (acc' : List β) => acc' = acc ++ (List.range k).map g) n
    (by
      rintro k st _ rfl
      exact ⟨_, rfl, by simp [List.range_succ]⟩)
    n 0 acc (by omega) (by simp)
  rw [h1, h2]

theorem convolution_cells_eq (x_len y_len fx fy padding stride : Nat)
    (hfx : fx ≤ x_len) (hfy : fy ≤ y_len) (hs : 1 ≤ stride) :
    Matrix.convolution_cells x_len y_len fx fy padding stride
      = some (List.product (List.range ((x_len - fx + 2 * padding) / stride + 1))
          (List.range ((y_len - fy + 2 * padding) / stride + 1))) := by
  generalize hDx : x_len - fx + 2 * padding = Dx
  generalize hDy : y_len - fy + 2 * padding = Dy
  have hbx : x_len + 2 * padding - fx + 1 = Dx + 1 := by omega
  have hby : y_len + 2 * padding - fy + 1 = Dy + 1 := by omega
  have hspos : 0 < stride := by omega
  obtain ⟨hx1, hx2⟩ := stride_count Dx stride hs
  obtain ⟨hy1, hy2⟩ := stride_count Dy stride hs
  unfold Matrix.convolution_cells
  rw [hbx, hby, forLoop_eq_countLoop _ 0 (Dx + 1) stride hs (Dx / stride + 1) hx1 hx2]
  obtain ⟨st, h1, h2⟩ := countLoop_inv (fun k => (fun i acc =>
      forLoop 0 (Dy + 1) stride (fun j acc =>
        some (acc ++ [(i / stride, j / stride)])) acc) (0 + k * stride))
    (fun (ca : Nat) (acc : List (Nat × Nat)) =>
      acc = List.product (List.range ca) (List.range (Dy / stride + 1)))
    (Dx / stride + 1)
    (by
      rintro ca acc _ rfl
      refine ⟨List.product (List.range ca) (List.range (Dy / stride + 1))
          ++ (List.range (Dy / stride + 1)).map (fun cb => (ca, cb)), ?_, ?_⟩
      · simp only [Nat.zero_add, Nat.mul_div_cancel _ hspos]
        rw [forLoop_eq_countLoop _ 0 (Dy + 1) stride hs (Dy / stride + 1) hy1 hy2]
        simp only [Nat.zero_add, Nat.mul_div_cancel _ hspos]
        exact countLoop_trace (fun cb => (ca, cb)) (Dy / stride + 1) _
      · simp [List.product, List.range_succ])
    (Dx / stride + 1) 0 [] (by omega) (by simp [List.product])
  rw [h1, h2]

/-- C2: with no result supplied, every entry `(a, b)` of `A.convolution(F, p, s)` is
the sum over `u < fx`, `v < fy` of `P[a * s + u][b * s + v] * F[u][v]`, where `P` is
`A` zero-padded by `p` on every side and the filter is applied unflipped. -/
theorem convolution_spec {α : Type} [CommRing α] (A F : Matrix α) (padding stride : Nat)
    (hA : A.WF) (hF : F.WF) (hfx : F.x_len ≤ A.x_len) (hfy : F.y_len ≤ A.y_len)
    (hs : 1 ≤ stride) :
    ∃ R, A.convolution none F padding stride = some R
      ∧ ∀ a b, a < R.x_len → b < R.y_len →
          R.read a b = some (∑ u ∈ Finset.range F.x_len, ∑ v ∈ Finset.range F.y_len,
            Matrix.padded A padding (a * stride + u) (b * stride + v) * F.entry u v) := by
  obtain ⟨r, h1, h2, h3⟩ := Matrix.convolution_result A F padding stride hA hF hfx hfy hs
  refine ⟨_, h1, ?_⟩
  intro a b ha hb
  rw [Matrix.read_eq_entry _ ⟨r, rfl, h2⟩ ha hb]
  congr 1
  exact h3 a b ha hb

/-- C2, at the input of the scenario: `A = [[1,2],[3,4]]`, `F = [[1,0],[0,1]]`,
padding 0, stride 1; the result is the 1 × 1 matrix `[[5]]`. -/
theorem convolution_spec_witness :
    (∃ R, (⟨2, 2, some [1, 2, 3, 4]⟩ : Matrix Int).convolution none
          ⟨2, 2, some [1, 0, 0, 1]⟩ 0 1 = some R
      ∧ ∀ a b, a < R.x_len → b < R.y_len →
          R.read a b = some (∑ u ∈ Finset.range 2, ∑ v ∈ Finset.range 2,
            Matrix.padded (⟨2, 2, some [1, 2, 3, 4]⟩ : Matrix Int) 0 (a * 1 + u) (b * 1 + v)
              * (⟨2, 2, some [1, 0, 0, 1]⟩ : Matrix Int).entry u v))
    ∧ (⟨2, 2, some [1, 2, 3, 4]⟩ : Matrix Int).convolution none
          ⟨2, 2, some [1, 0, 0, 1]⟩ 0 1 = some ⟨1, 1, some [5]⟩ :=
  ⟨convolution_spec ⟨2, 2, some [1, 2, 3, 4]⟩ ⟨2, 2, some [1, 0, 0, 1]⟩ 0 1
      ⟨_, rfl, rfl⟩ ⟨_, rfl, rfl⟩ (by decide) (by decide) (by decide),
    by decide⟩

/-- C3: with no result supplied, `convolution` completes (no `getEle` assertion fails,
no access leaves a store) and returns a matrix of shape
`((x - fx + 2p) / s + 1) × ((y - fy + 2p) / s + 1)`; the cells `(i / s, j / s)` its
loops address are exactly the cells of that shape, each once. -/
theorem convolution_shape {α : Type} [CommRing α] (A F : Matrix α) (padding stride : Nat)
    (hA : A.WF) (hF : F.WF) (hfx : F.x_len ≤ A.x_len) (hfy : F.y_len ≤ A.y_len)
    (hs : 1 ≤ stride) :
    ∃ R cells, A.convolution none F padding stride = some R
      ∧ R.x_len = (A.x_len - F.x_len + 2 * padding) / stride + 1
      ∧ R.y_len = (A.y_len - F.y_len + 2 * padding) / stride + 1
      ∧ R.WF
      ∧ Matrix.convolution_cells A.x_len A.y_len F.x_len F.y_len padding stride = some cells
      ∧ cells.Nodup
      ∧ ∀ a b, (a, b) ∈ cells ↔ a < R.x_len ∧ b < R.y_len := by
  obtain ⟨r, h1, h2, _⟩ := Matrix.convolution_result A F padding stride hA hF hfx hfy hs
  refine ⟨_, List.product (List.range ((A.x_len - F.x_len + 2 * padding) / stride + 1))
      (List.range ((A.y_len - F.y_len + 2 * padding) / stride + 1)), h1, rfl, rfl,
    ⟨r, rfl, h2⟩,
    convolution_cells_eq A.x_len A.y_len F.x_len F.y_len padding stride hfx hfy hs,
    List.Nodup.product (List.nodup_range _) (List.nodup_range _), ?_⟩
  intro a b
  exact List.mem_product.trans (by rw [List.mem_range, List.mem_range])

/-- C3, at a concrete input: a 3 × 3 input, a 2 × 2 filter, padding 1, stride 2. -/
theorem convolution_shape_witness :
    ∃ R cells, (⟨3, 3, some [1, 2, 3, 4, 5, 6, 7, 8, 9]⟩ : Matrix Int).convolution none
          ⟨2, 2, some [1, 0, 0, 1]⟩ 1 2 = some R
      ∧ R.x_len = (3 - 2 + 2 * 1) / 2 + 1
      ∧ R.y_len = (3 - 2 + 2 * 1) / 2 + 1
      ∧ R.WF
      ∧ Matrix.convolution_cells 3 3 2 2 1 2 = some cells
      ∧ cells.Nodup
      ∧ ∀ a b, (a, b) ∈ cells ↔ a < R.x_len ∧ b < R.y_len :=
  convolution_shape ⟨3, 3, some [1, 2, 3, 4, 5, 6, 7, 8, 9]⟩ ⟨2, 2, some [1, 0, 0, 1]⟩ 1 2
    ⟨_, rfl, rfl⟩ ⟨_, rfl, rfl⟩ (by decide) (by decide) (by decide)

/-- C4 (defect in the code): the adjoint identity fails.  For the 1 × 2 input
`[[2,3]]`, the 1 × 1 filter `[[5]]`, padding 0 and stride 1 the forward output is
1 × 2, yet `deconvolution_Delta` on the 1 × 2 gradient `[[7,11]]` returns the 1 × 1
matrix `[[35]]`, not a matrix of the input's shape (`recover_y` is computed from the
row counts).  For the 1 × 1 input `[[1]]`, the same filter shape and padding 1 the
forward output is 3 × 3, and `deconvolution_Delta` on a 3 × 3 gradient does not
complete: the result is addressed at `(i + xc, j + yc)` without subtracting the
padding, and `getEle(1, 1)` fails on the 1 × 1 result. -/
theorem deconvolution_Delta_defect :
    (⟨1, 2, some [2, 3]⟩ : Matrix Int).convolution none ⟨1, 1, some [5]⟩ 0 1
        = some ⟨1, 2, some [10, 15]⟩
    ∧ (⟨1, 2, some [7, 11]⟩ : Matrix Int).deconvolution_Delta none ⟨1, 1, some [5]⟩ 0 1
        = some ⟨1, 1, some [35]⟩
    ∧ (⟨1, 1, some [1]⟩ : Matrix Int).convolution none ⟨1, 1, some [1]⟩ 1 1
        = some ⟨3, 3, some [0, 0, 0, 0, 1, 0, 0, 0, 0]⟩
    ∧ (⟨3, 3, some [1, 1, 1, 1, 1, 1, 1, 1, 1]⟩ : Matrix Int).deconvolution_Delta none
        ⟨1, 1, some [1]⟩ 1 1 = none := by
  decide

/-- C5 (defect in the code): the filter-gradient rule fails.  For the 1 × 2 input
`[[2,3]]`, the 1 × 1 filter gradient `[[1]]`, padding 0, stride 1 and the 1 × 2
gradient `[[7,11]]` the rule gives `1 + 7 * 2 + 11 * 3 = 48`, but
`deconvolution_Filter` leaves `[[15]]`: the column test compares `j + yc` with the
row count of the input and skips column 1.  With padding 1, the 1 × 1 input `[[1]]`
and a 3 × 3 gradient the call does not complete: the input is read at
`(i + xc, j + yc)` without subtracting the padding, and `getEle(1, 1)` fails. -/
theorem deconvolution_Filter_defect :
    (⟨1, 2, some [7, 11]⟩ : Matrix Int).deconvolution_Filter ⟨1, 1, some [1]⟩
        ⟨1, 2, some [2, 3]⟩ 0 1 = some ⟨1, 1, some [15]⟩
    ∧ (1 : Int) + 7 * Matrix.padded (⟨1, 2, some [2, 3]⟩ : Matrix Int) 0 0 0
        + 11 * Matrix.padded (⟨1, 2, some [2, 3]⟩ : Matrix Int) 0 0 1 = 48
    ∧ (⟨3, 3, some [1, 1, 1, 1, 1, 1, 1, 1, 1]⟩ : Matrix Int).deconvolution_Filter
        ⟨1, 1, some [0]⟩ ⟨1, 1, some [1]⟩ 1 1 = none := by
  decide

/-- C6 (defect in the code): on the 2 × 2 matrix `[[1,2],[3,4]]` `transpose()`
completes and leaves the store `[1,2,3,4]`; element `(1, 0)` is `3`, while the
original element `(0, 1)` is `2`.  The copy loop reads `getEle(i, j)` where a
transposition reads `getEle(j, i)`. -/
theorem transpose_defect :
    (⟨2, 2, some [1, 2, 3, 4]⟩ : Matrix Int).transpose = some ⟨2, 2, some [1, 2, 3, 4]⟩
    ∧ (⟨2, 2, some [1, 2, 3, 4]⟩ : Matrix Int).read 1 0 = some 3
    ∧ (⟨2, 2, some [1, 2, 3, 4]⟩ : Matrix Int).read 0 1 = some 2 := by
  decide

/-- C7 (defect in the code): on the 2 × 3 matrix `[[1,2,3],[4,5,6]]` the first
`transpose()` does not complete (`getEle(2, 0)` fails its assertion); on the 3 × 2
matrix with the same store the first call returns the 2 × 3 matrix with store
`[1,2,3,3,4,5]` and the second call does not complete. -/
theorem transpose_twice_defect :
    (⟨2, 3, some [1, 2, 3, 4, 5, 6]⟩ : Matrix Int).transpose = none
    ∧ (⟨3, 2, some [1, 2, 3, 4, 5, 6]⟩ : Matrix Int).transpose
        = some ⟨2, 3, some [1, 2, 3, 3, 4, 5]⟩
    ∧ ((⟨3, 2, some [1, 2, 3, 4, 5, 6]⟩ : Matrix Int).transpose).bind Matrix.transpose
        = none := by
  decide

/-! ## `rot180` -/

theorem rot_idx {n i j : Nat} (hi : i < n) (hj : j < n) :
    (n - 1 - i) * n + (n - 1 - j) + (i * n + j) + 1 = n * n := by
  have hk : (n - 1 - i) + i + 1 = n := by omega
  have e : ((n - 1 - i) + i + 1) * n = (n - 1 - i) * n + i * n + n := by ring
  rw [hk] at e
  omega

theorem rotIdx_zero (N t : Nat) : Matrix.rotIdx N 0 t = t := by
  unfold Matrix.rotIdx
  rw [if_neg (by omega)]

theorem half_sq (n : Nat) : 2 * (n / 2 * n) ≤ n * n := by
  have h : 2 * (n / 2) ≤ n := by omega
  have h2 : 2 * (n / 2) * n ≤ n * n := Nat.mul_le_mul_right n h
  have e : 2 * (n / 2) * n = 2 * (n / 2 * n) := by ring
  omega

namespace Matrix

variable {α : Type}

theorem swapEle_eq (m : Matrix α) (l : List α) (hm : m.matrix = some l) (p q : Nat)
    (hp : p < l.length) (hq : q < l.length) :
    ∃ l', swapEle m p q = some { m with matrix := some l' } ∧ l'.length = l.length
      ∧ ∀ t, l'[t]? = if t = q then l[p]? else if t = p then l[q]? else l[t]? := by
  refine ⟨(l.set p (l.get ⟨q, hq⟩)).set q (l.get ⟨p, hp⟩), ?_, by simp, ?_⟩
  · simp [swapEle, hm, load, store, hp, hq, List.getElem?_eq_getElem]
  · intro t
    rw [List.getElem?_set, List.getElem?_set]
    by_cases h1 : t = q
    · subst h1
      simp [hp, hq, List.getElem?_eq_getElem]
    · rw [if_neg (Ne.symm h1), if_neg h1]
      by_cases h2 : t = p
      · subst h2
        simp [hp, hq, List.getElem?_eq_getElem]
      · rw [if_neg (Ne.symm h2), if_neg h2]

/-- The loop over `j` of `rot180` for a fixed row `i` of the upper half. -/
theorem rot180_row (n : Nat) (a : List α) (i : Nat) (hi : i < n / 2) (l : List α)
    (hlen : l.length = n * n)
    (hval : ∀ t, l[t]? = a[rotIdx (n * n) (i * n) t]?) :
    ∃ l', forLoop 0 n 1 (fun j (m : Matrix α) =>
          (m.getEle i j).bind fun p =>
          (m.getEle (n - 1 - i) (n - 1 - j)).bind fun q =>
          swapEle m p q) ⟨n, n, some l⟩ = some ⟨n, n, some l'⟩
      ∧ l'.length = n * n
      ∧ ∀ t, l'[t]? = a[rotIdx (n * n) (i * n + n) t]? := by
  rw [forLoop_unit]
  have hhalf := half_sq n
  have hin : i < n := by omega
  have hrow : i * n + n ≤ n / 2 * n := by
    have h := Nat.mul_le_mul_right n (show i + 1 ≤ n / 2 from hi)
    have e : (i + 1) * n = i * n + n := by ring
    omega
  have key := countLoop_inv (fun j (m : Matrix α) =>
          (m.getEle i j).bind fun p =>
          (m.getEle (n - 1 - i) (n - 1 - j)).bind fun q =>
          swapEle m p q)
    (fun (j : Nat) (m : Matrix α) => ∃ l', m = ⟨n, n, some l'⟩ ∧ l'.length = n * n
      ∧ ∀ t, l'[t]? = a[rotIdx (n * n) (i * n + j) t]?)
    n ?_ n 0 ⟨n, n, some l⟩ (by omega) ⟨l, rfl, hlen, by simpa using hval⟩
  · obtain ⟨st, h1, l', rfl, h2, h3⟩ := key
    exact ⟨l', h1, h2, h3⟩
  · rintro j m hj ⟨l1, rfl, hlen1, hval1⟩
    have hidx := rot_idx hin hj
    have hp : i * n + j < l1.length := by rw [hlen1]; omega
    have hq : (n - 1 - i) * n + (n - 1 - j) < l1.length := by rw [hlen1]; omega
    obtain ⟨l2, hs, hlen2, hval2⟩ := swapEle_eq (⟨n, n, some l1⟩ : Matrix α) l1 rfl
      (i * n + j) ((n - 1 - i) * n + (n - 1 - j)) hp hq
    refine ⟨⟨n, n, some l2⟩, ?_, l2, rfl, by omega, ?_⟩
    · have g1 : (⟨n, n, some l1⟩ : Matrix α).getEle i j = some (i * n + j) :=
        getEle_eq _ (show i < n from hin) (show j < n from hj)
      have g2 : (⟨n, n, some l1⟩ : Matrix α).getEle (n - 1 - i) (n - 1 - j)
          = some ((n - 1 - i) * n + (n - 1 - j)) :=
        getEle_eq _ (show n - 1 - i < n by omega) (show n - 1 - j < n by omega)
      show ((⟨n, n, some l1⟩ : Matrix α).getEle i j).bind _ = _
      rw [g1, Option.some_bind, g2, Option.some_bind]
      exact hs
    · intro t
      rw [hval2 t]
      by_cases h1 : t = (n - 1 - i) * n + (n - 1 - j)
      · rw [if_pos h1, hval1 (i * n + j)]
        congr 1
        simp only [rotIdx]
        rw [if_neg (by omega), if_pos (by omega)]
        omega
      · rw [if_neg h1]
        by_cases h2 : t = i * n + j
        · rw [if_pos h2, hval1 ((n - 1 - i) * n + (n - 1 - j))]
          congr 1
          simp only [rotIdx]
          rw [if_neg (by omega), if_pos (by omega)]
          omega
        · rw [if_neg h2, hval1 t]
          congr 1
          simp only [rotIdx]
          by_cases h3 : t < i * n + j ∨ (n * n - (i * n + j) ≤ t ∧ t < n * n)
          · rw [if_pos h3, if_pos (by omega)]
          · rw [if_neg h3, if_neg (by omega)]

/-- What `rot180` leaves in the store of a square matrix: the first `n / 2` rows and
the last `n / 2` rows are exchanged in reverse order, the rest stays. -/
theorem rot180_store (n : Nat) (a : List α) (hla : a.length = n * n) :
    ∃ a', (⟨n, n, some a⟩ : Matrix α).rot180 = some ⟨n, n, some a'⟩
      ∧ a'.length = n * n
      ∧ ∀ t, a'[t]? = a[rotIdx (n * n) (n / 2 * n) t]? := by
  by_cases h1 : n = 1
  · subst h1
    refine ⟨a, by simp [rot180], hla, ?_⟩
    intro t
    rw [rotIdx_zero]
  · unfold rot180
    simp only [if_true, if_neg h1]
    rw [forLoop_unit]
    have key := countLoop_inv (fun i (m : Matrix α) =>
        forLoop 0 n 1 (fun j (m : Matrix α) =>
          (m.getEle i j).bind fun p =>
          (m.getEle (n - 1 - i) (n - 1 - j)).bind fun q =>
          swapEle m p q) m)
      (fun (i : Nat) (m : Matrix α) => ∃ l', m = ⟨n, n, some l'⟩ ∧ l'.length = n * n
        ∧ ∀ t, l'[t]? = a[rotIdx (n * n) (i * n) t]?)
      (n / 2) ?_ (n / 2) 0 ⟨n, n, some a⟩ (by omega)
      ⟨a, rfl, hla, by intro t; rw [Nat.zero_mul, rotIdx_zero]⟩
    · obtain ⟨st, h1, l', rfl, h2, h3⟩ := key
      exact ⟨l', h1, h2, h3⟩
    · rintro i m hi ⟨l1, rfl, hlen1, hval1⟩
      obtain ⟨l2, hs, hlen2, hval2⟩ := rot180_row n a i hi l1 hlen1 hval1
      refine ⟨_, hs, l2, rfl, hlen2, ?_⟩
      intro t
      rw [hval2 t]
      have e : (i + 1) * n = i * n + n := by ring
      rw [e]

end Matrix

theorem rotIdx_rotIdx (N T t : Nat) (h : 2 * T ≤ N) :
    Matrix.rotIdx N T (Matrix.rotIdx N T t) = t := by
  unfold Matrix.rotIdx
  by_cases h1 : t < T ∨ (N - T ≤ t ∧ t < N)
  · rw [if_pos h1, if_pos (by omega)]
    omega
  · rw [if_neg h1, if_neg h1]

/-- C8: on a square matrix two applications of `rot180()` complete and give back the
matrix, shape and every element; on a 1 × 1 matrix a single application already
changes nothing. -/
theorem rot180_twice {α : Type} (A : Matrix α) (hA : A.WF) (hsq : A.x_len = A.y_len) :
    (A.rot180).bind Matrix.rot180 = some A ∧ (A.x_len = 1 → A.rot180 = some A) := by
  obtain ⟨n, n', M⟩ := A
  obtain ⟨a, ha, hla⟩ := hA
  simp only at hsq ha hla
  subst hsq
  subst ha
  constructor
  · obtain ⟨a1, h1, hl1, hv1⟩ := Matrix.rot180_store n a hla
    obtain ⟨a2, h2, hl2, hv2⟩ := Matrix.rot180_store n a1 hl1
    rw [h1, Option.some_bind, h2]
    have e : a2 = a := by
      apply List.ext_getElem?
      intro t
      rw [hv2 t, hv1, rotIdx_rotIdx _ _ _ (half_sq n)]
    rw [e]
  · intro h
    simp only at h
    subst h
    simp [Matrix.rot180]

/-- C8, at a concrete input: a 3 × 3 matrix (odd side) over `ℤ`. -/
theorem rot180_twice_witness :
    ((⟨3, 3, some [1, 2, 3, 4, 5, 6, 7, 8, 9]⟩ : Matrix Int).rot180).bind Matrix.rot180
        = some ⟨3, 3, some [1, 2, 3, 4, 5, 6, 7, 8, 9]⟩
      ∧ ((⟨3, 3, some [1, 2, 3, 4, 5, 6, 7, 8, 9]⟩ : Matrix Int).x_len = 1 →
          (⟨3, 3, some [1, 2, 3, 4, 5, 6, 7, 8, 9]⟩ : Matrix Int).rot180
            = some ⟨3, 3, some [1, 2, 3, 4, 5, 6, 7, 8, 9]⟩) :=
  rot180_twice ⟨3, 3, some [1, 2, 3, 4, 5, 6, 7, 8, 9]⟩ ⟨_, rfl, rfl⟩ rfl

/-! ## `checkConvergence` -/

/-- C10, the claim refuted: the 1 × 2 and the 2 × 1 zero matrices differ in shape,
the precondition `size() == another->size()` holds, and the call returns `true`. -/
theorem checkConvergence_shape_counterexample :
    ((⟨1, 2, some [0, 0]⟩ : Matrix ℚ).x_len ≠ (⟨2, 1, some [0, 0]⟩ : Matrix ℚ).x_len
      ∨ (⟨1, 2, some [0, 0]⟩ : Matrix ℚ).y_len ≠ (⟨2, 1, some [0, 0]⟩ : Matrix ℚ).y_len)
    ∧ (⟨1, 2, some [0, 0]⟩ : Matrix ℚ).checkConvergence ⟨2, 1, some [0, 0]⟩ = some true := by
  refine ⟨Or.inl (by decide), ?_⟩
  norm_num [Matrix.checkConvergence, Matrix.size, Matrix.pointer, Matrix.convergeLoop]

/-- C10, amended: when the element counts `x_len * y_len` of the two matrices differ,
`checkConvergence` fails its precondition check, so it does not return `true`. -/
theorem checkConvergence_size_mismatch {α : Type} [LinearOrderedField α] (A B : Matrix α)
    (h : A.x_len * A.y_len ≠ B.x_len * B.y_len) :
    A.checkConvergence B = none ∧ A.checkConvergence B ≠ some true := by
  have e : A.checkConvergence B = none := by
    simp [Matrix.checkConvergence, Matrix.size, h]
  exact ⟨e, by rw [e]; exact fun h => by cases h⟩

/-- C10 amended, at a concrete input: a 1 × 2 and a 2 × 2 matrix. -/
theorem checkConvergence_size_mismatch_witness :
    (⟨1, 2, some [0, 0]⟩ : Matrix ℚ).checkConvergence ⟨2, 2, some [0, 0, 0, 0]⟩ = none
      ∧ (⟨1, 2, some [0, 0]⟩ : Matrix ℚ).checkConvergence ⟨2, 2, some [0, 0, 0, 0]⟩
        ≠ some true :=
  checkConvergence_size_mismatch ⟨1, 2, some [0, 0]⟩ ⟨2, 2, some [0, 0, 0, 0]⟩ (by decide)

theorem span_full {α : Type} (l : List α) (n : Nat) (h : l.length = n) : span l 0 n = some l := by
  simp [span, h]

theorem storeSpan_full {α : Type} (l vs : List α) (h : vs.length = l.length) :
    storeSpan l 0 vs = some vs := by
  simp [storeSpan, h]

theorem getD_map_lt {α : Type} (f : α → α) (d : α) (l : List α) (t : Nat) (h : t < l.length) :
    (l.map f).getD t d = f (l.getD t d) := by
  simp [List.getD_eq_getElem?_getD, List.getElem?_eq_getElem h]

theorem getD_zipWith_lt {α : Type} (f : α → α → α) (d : α) (l1 l2 : List α) (t : Nat)
    (h1 : t < l1.length) (h2 : t < l2.length) :
    (List.zipWith f l1 l2).getD t d = f (l1.getD t d) (l2.getD t d) := by
  simp [List.getD_eq_getElem?_getD, List.getElem?_zipWith, List.getElem?_eq_getElem h1,
    List.getElem?_eq_getElem h2]

theorem clip_eq_max_min {α : Type} [LinearOrderedField α] (t e : α) (ht : 0 < t) :
    (if e < -t then -t else if e > t then t else e) = max (-t) (min t e) := by
  by_cases h1 : e < -t
  · rw [if_pos h1]
    have : min t e = e := min_eq_right (by linarith)
    rw [this, max_eq_left (le_of_lt h1)]
  · rw [if_neg h1]
    by_cases h2 : e > t
    · rw [if_pos h2, min_eq_left (le_of_lt h2), max_eq_right (by linarith)]
    · rw [if_neg h2, min_eq_right (not_lt.1 h2), max_eq_right (not_lt.1 h1)]

/-- C15: for a threshold `t > 0`, `clipping(t)` completes, keeps the shape, and leaves
`max(-t, min(t, e))` for every element `e`: the result lies in `[-t, t]`, an element
already there is unchanged, and a second `clipping(t)` changes nothing; for `t ≤ 0`
the call fails its precondition. -/
theorem clipping_spec {α : Type} [LinearOrderedField α] (A : Matrix α) (t : α) (hA : A.WF) :
    (0 < t → ∃ R, A.clipping t = some R ∧ R.x_len = A.x_len ∧ R.y_len = A.y_len ∧ R.WF
      ∧ (∀ i j, i < A.x_len → j < A.y_len →
          R.read i j = some (max (-t) (min t (A.entry i j)))
          ∧ -t ≤ R.entry i j ∧ R.entry i j ≤ t
          ∧ (-t ≤ A.entry i j → A.entry i j ≤ t → R.entry i j = A.entry i j))
      ∧ R.clipping t = some R)
    ∧ (t ≤ 0 → A.clipping t = none) := by
  obtain ⟨a, ha, hla⟩ := hA
  constructor
  · intro ht
    have hlen : (a.map fun e => if e < -t then -t else if e > t then t else e).length
        = A.x_len * A.y_len := by simp [hla]
    have hent : ∀ i j, i < A.x_len → j < A.y_len →
        (⟨A.x_len, A.y_len,
          some (a.map fun e => if e < -t then -t else if e > t then t else e)⟩ : Matrix α).entry i j
          = max (-t) (min t (A.entry i j)) := by
      intro i j hi hj
      rw [Matrix.entry_eq_getD _ _ rfl, Matrix.entry_eq_getD A a ha]
      show (a.map _).getD (i * A.y_len + j) 0 = _
      rw [getD_map_lt _ _ _ _ (by rw [hla]; exact idx_lt hi hj), clip_eq_max_min _ _ ht]
    refine ⟨⟨A.x_len, A.y_len,
        some (a.map fun e => if e < -t then -t else if e > t then t else e)⟩,
      ?_, rfl, rfl, ⟨_, rfl, hlen⟩, ?_, ?_⟩
    · simp [Matrix.clipping, ht, ha]
    · intro i j hi hj
      refine ⟨?_, ?_, ?_, ?_⟩
      · rw [Matrix.read_eq_entry (⟨A.x_len, A.y_len,
          some (a.map fun e => if e < -t then -t else if e > t then t else e)⟩ : Matrix α)
          ⟨_, rfl, hlen⟩ hi hj, hent i j hi hj]
      · rw [hent i j hi hj]; exact le_max_left _ _
      · rw [hent i j hi hj]
        exact max_le (by linarith) (min_le_left _ _)
      · intro h1 h2
        rw [hent i j hi hj, min_eq_right h2, max_eq_right h1]
    · simp only [Matrix.clipping, if_pos ht, Option.some_bind, List.map_map]
      congr 3
      apply List.map_congr_left
      intro e _
      simp only [Function.comp]
      rw [clip_eq_max_min _ e ht, clip_eq_max_min _ _ ht]
      have h1 : -t ≤ max (-t) (min t e) := le_max_left _ _
      have h2 : max (-t) (min t e) ≤ t := max_le (by linarith) (min_le_left _ _)
      rw [min_eq_right h2, max_eq_right h1]
  · intro ht
    simp [Matrix.clipping, not_lt.2 ht]

/-- C15, at a concrete input: a 1 × 3 matrix over `ℚ` clipped at 1. -/
theorem clipping_spec_witness :
    (0 < (1 : ℚ) → ∃ R, (⟨1, 3, some [-5, 0, 7]⟩ : Matrix ℚ).clipping 1 = some R
      ∧ R.x_len = (⟨1, 3, some [-5, 0, 7]⟩ : Matrix ℚ).x_len
      ∧ R.y_len = (⟨1, 3, some [-5, 0, 7]⟩ : Matrix ℚ).y_len ∧ R.WF
      ∧ (∀ i j, i < (⟨1, 3, some [-5, 0, 7]⟩ : Matrix ℚ).x_len →
          j < (⟨1, 3, some [-5, 0, 7]⟩ : Matrix ℚ).y_len →
          R.read i j = some (max (-1) (min 1 ((⟨1, 3, some [-5, 0, 7]⟩ : Matrix ℚ).entry i j)))
          ∧ -1 ≤ R.entry i j ∧ R.entry i j ≤ 1
          ∧ (-1 ≤ (⟨1, 3, some [-5, 0, 7]⟩ : Matrix ℚ).entry i j →
              (⟨1, 3, some [-5, 0, 7]⟩ : Matrix ℚ).entry i j ≤ 1 →
              R.entry i j = (⟨1, 3, some [-5, 0, 7]⟩ : Matrix ℚ).entry i j))
      ∧ R.clipping 1 = some R)
    ∧ ((1 : ℚ) ≤ 0 → (⟨1, 3, some [-5, 0, 7]⟩ : Matrix ℚ).clipping 1 = none) :=
  clipping_spec ⟨1, 3, some [-5, 0, 7]⟩ 1 ⟨_, rfl, rfl⟩

/-- C19 (defect in the code): for the 2 × 3 input `[[1,2,3],[4,5,6]]`, the 2 × 2
filter of ones, padding 0 and stride 1 the forward output is 1 × 2, and
`deconvolution_Delta` on a 1 × 2 gradient allocates a 2 × 2 result, not a 2 × 3 one:
`recover_y` is computed from `x_len` and `filter->x_len`. -/
theorem deconvolution_Delta_shape_defect :
    (⟨2, 3, some [1, 2, 3, 4, 5, 6]⟩ : Matrix Int).convolution none
        ⟨2, 2, some [1, 1, 1, 1]⟩ 0 1 = some ⟨1, 2, some [12, 16]⟩
    ∧ (⟨1, 2, some [1, 1]⟩ : Matrix Int).deconvolution_Delta none
        ⟨2, 2, some [1, 1, 1, 1]⟩ 0 1 = some ⟨2, 2, some [1, 1, 1, 1]⟩ := by
  decide

theorem rotIdx_row (n i j : Nat) (hi : i < n) (hj : j < n) :
    Matrix.rotIdx (n * n) (n / 2 * n) (i * n + j)
      = if i < n / 2 ∨ n - n / 2 ≤ i then (n - 1 - i) * n + (n - 1 - j) else i * n + j := by
  have hidx := rot_idx hi hj
  have hsub : (n - n / 2) * n + n / 2 * n = n * n := by
    have e : (n - n / 2 + n / 2) * n = (n - n / 2) * n + n / 2 * n := by ring
    have e2 : n - n / 2 + n / 2 = n := by omega
    rw [e2] at e
    omega
  unfold Matrix.rotIdx
  by_cases h1 : i < n / 2
  · have h2 : i * n + j < n / 2 * n := idx_lt h1 hj
    rw [if_pos (Or.inl h2), if_pos (Or.inl h1)]
    omega
  · by_cases h3 : n - n / 2 ≤ i
    · have h4 : (n - n / 2) * n ≤ i * n := Nat.mul_le_mul_right n h3
      rw [if_pos (Or.inr ⟨by omega, by omega⟩), if_pos (Or.inr h3)]
      omega
    · have h5 : n / 2 * n ≤ i * n := Nat.mul_le_mul_right n (by omega)
      have h6 : i * n + j < (n - n / 2) * n := idx_lt (by omega) hj
      rw [if_neg (by omega), if_neg (by omega)]

/-- C20: on a square `n × n` matrix `rot180()` completes and keeps the shape;
element `(i, j)` of the result is the original element `(n - 1 - i, n - 1 - j)` for
every row `i` other than the middle row of an odd `n`, and the middle row
`(n - 1) / 2` of an odd `n` is left in place. -/
theorem rot180_spec {α : Type} (A : Matrix α) (hA : A.WF) (hsq : A.x_len = A.y_len) :
    ∃ R, A.rot180 = some R ∧ R.x_len = A.x_len ∧ R.y_len = A.y_len
      ∧ ∀ i j, i < A.x_len → j < A.x_len →
          ((A.x_len % 2 = 1 ∧ i = (A.x_len - 1) / 2) → R.read i j = A.read i j)
          ∧ (¬ (A.x_len % 2 = 1 ∧ i = (A.x_len - 1) / 2) →
              R.read i j = A.read (A.x_len - 1 - i) (A.x_len - 1 - j)) := by
  obtain ⟨n, n', M⟩ := A
  obtain ⟨a, ha, hla⟩ := hA
  simp only at hsq ha hla
  subst hsq
  subst ha
  obtain ⟨a1, h1, hl1, hv1⟩ := Matrix.rot180_store n a hla
  refine ⟨_, h1, rfl, rfl, ?_⟩
  intro i j hi hj
  dsimp only at hi hj ⊢
  have hread : ∀ (l : List α) (p q : Nat), p < n → q < n →
      (⟨n, n, some l⟩ : Matrix α).read p q = l[p * n + q]? := by
    intro l p q hp hq
    have hg : (⟨n, n, some l⟩ : Matrix α).getEle p q = some (p * n + q) :=
      Matrix.getEle_eq _ (show p < n from hp) (show q < n from hq)
    simp [Matrix.read, hg, load]
  have hrow := rotIdx_row n i j hi hj
  constructor
  · rintro ⟨hodd, hmid⟩
    rw [hread a1 i j hi hj, hread a i j hi hj, hv1, hrow, if_neg (by omega)]
  · intro hnot
    rw [hread a1 i j hi hj, hread a _ _ (by omega) (by omega), hv1, hrow, if_pos (by omega)]

/-- C20, at a concrete input: a 3 × 3 matrix; the outer rows are exchanged and
reversed, the middle row `[4,5,6]` stays as it is. -/
theorem rot180_spec_witness :
    (∃ R, (⟨3, 3, some [1, 2, 3, 4, 5, 6, 7, 8, 9]⟩ : Matrix Int).rot180 = some R
      ∧ R.x_len = 3 ∧ R.y_len = 3
      ∧ ∀ i j, i < 3 → j < 3 →
          (((3 : Nat) % 2 = 1 ∧ i = (3 - 1) / 2) →
            R.read i j = (⟨3, 3, some [1, 2, 3, 4, 5, 6, 7, 8, 9]⟩ : Matrix Int).read i j)
          ∧ (¬ ((3 : Nat) % 2 = 1 ∧ i = (3 - 1) / 2) →
              R.read i j = (⟨3, 3, some [1, 2, 3, 4, 5, 6, 7, 8, 9]⟩ : Matrix Int).read
                (3 - 1 - i) (3 - 1 - j)))
    ∧ (⟨3, 3, some [1, 2, 3, 4, 5, 6, 7, 8, 9]⟩ : Matrix Int).rot180
        = some ⟨3, 3, some [9, 8, 7, 4, 5, 6, 3, 2, 1]⟩ :=
  ⟨rot180_spec ⟨3, 3, some [1, 2, 3, 4, 5, 6, 7, 8, 9]⟩ ⟨_, rfl, rfl⟩ rfl, by decide⟩

namespace Matrix

variable {α : Type}

end Matrix

namespace Matrix

variable {α : Type}

end Matrix

/-- A loop whose every round adds `g k t` to the value `val st t` of the state adds the
sum of the `g k t` in all. -/
theorem countLoop_accum {σ ι α : Type} [AddCommMonoid α] (f : Nat → σ → Option σ)
    (P : σ → Prop) (Q : ι → Prop) (val : σ → ι → α) (g : Nat → ι → α) (n : Nat)
    (hstep : ∀ k st, k < n → P st →
      ∃ st', f k st = some st' ∧ P st' ∧ ∀ t, Q t → val st' t = val st t + g k t)
    (st : σ) (hst : P st) :
    ∃ st', countLoop f n 0 st = some st' ∧ P st'
      ∧ ∀ t, Q t → val st' t = val st t + ∑ k ∈ Finset.range n, g k t := by
  refine countLoop_inv f (fun (k : Nat) (st' : σ) => P st'
      ∧ ∀ t, Q t → val st' t = val st t + ∑ k' ∈ Finset.range k, g k' t) n ?_ n 0 st
    (by omega) ⟨hst, by intro t _; simp⟩
  rintro k st1 hk ⟨hP, hval⟩
  obtain ⟨st2, h1, h2, h3⟩ := hstep k st1 hk hP
  refine ⟨st2, h1, h2, ?_⟩
  intro t ht
  rw [h3 t ht, hval t ht, Finset.sum_range_succ, add_assoc]

theorem pair_inj {p q p' q' S : Nat} (hq : q < S) (hq' : q' < S) :
    p * S + q = p' * S + q' ↔ p = p' ∧ q = q' := by
  constructor
  · intro h
    have hp : p = p' := by
      by_contra hne
      rcases Nat.lt_or_gt_of_ne hne with hlt | hlt
      · have h3 : (p + 1) * S ≤ p' * S := Nat.mul_le_mul_right _ hlt
        have e : (p + 1) * S = p * S + S := by ring
        omega
      · have h3 : (p' + 1) * S ≤ p * S := Nat.mul_le_mul_right _ hlt
        have e : (p' + 1) * S = p' * S + S := by ring
        omega
    subst hp
    exact ⟨rfl, by omega⟩
  · rintro ⟨rfl, rfl⟩
    rfl

theorem wrap_natCast (k : Nat) (h : k < 2 ^ 64) : wrap (k : Int) = k := by
  unfold wrap
  have h1 : (k : Int) % (2 ^ 64 : Int) = k := by
    apply Int.emod_eq_of_lt
    · exact Int.natCast_nonneg k
    · exact_mod_cast h
  rw [h1]
  simp

namespace Matrix

variable {α : Type}

/-- The loop over `yc` of `deconvolution_Delta` with padding 0: one row of the scaled
filter is added into the result. -/
theorem deconvolution_Delta_yc [CommRing α] (ans0 : Matrix α) (tv : List α)
    (S fx fy i j xc : Nat) (hax : ans0.x_len = S) (hay : ans0.y_len = S)
    (htv : tv.length = fx * fy) (hxc : xc < fx) (hi : i + xc < S) (hj : j + fy ≤ S)
    (r : List α) (hr : r.length = S * S) :
    ∃ r', forLoop 0 fy 1 (fun yc r =>
          if i + xc < 0 ∨ j + yc < 0 ∨ i + xc ≥ 0 + S ∨ j + yc ≥ 0 + S then some r
          else
            (ans0.getEle (i + xc) (j + yc)).bind fun dst =>
            (load r dst).bind fun old =>
            (load tv (xc * fy + yc)).bind fun v =>
            store r dst (old + v)) r = some r'
      ∧ r'.length = S * S
      ∧ ∀ t : Nat × Nat, t.2 < S → r'.getD (t.1 * S + t.2) 0
          = r.getD (t.1 * S + t.2) 0
            + ∑ v ∈ Finset.range fy,
                if i + xc = t.1 ∧ j + v = t.2 then tv.getD (xc * fy + v) 0 else 0 := by
  rw [forLoop_unit]
  refine countLoop_accum _ (fun r : List α => r.length = S * S) (fun t : Nat × Nat => t.2 < S)
    (fun r t => r.getD (t.1 * S + t.2) 0)
    (fun v t => if i + xc = t.1 ∧ j + v = t.2 then tv.getD (xc * fy + v) 0 else 0) fy ?_ r hr
  intro v st hv hst
  have hskip : ¬ (i + xc < 0 ∨ j + v < 0 ∨ i + xc ≥ 0 + S ∨ j + v ≥ 0 + S) := by omega
  have hg : ans0.getEle (i + xc) (j + v) = some ((i + xc) * S + (j + v)) := by
    rw [getEle_eq ans0 (by omega) (by omega), hay]
  have hdst : (i + xc) * S + (j + v) < st.length := by
    rw [hst]; exact idx_lt hi (by omega)
  have hsrc : xc * fy + v < tv.length := by
    rw [htv]; exact idx_lt hxc hv
  refine ⟨st.set ((i + xc) * S + (j + v))
      (st.getD ((i + xc) * S + (j + v)) 0 + tv.getD (xc * fy + v) 0), ?_, by simp [hst], ?_⟩
  · rw [if_neg hskip, hg, Option.some_bind, load_eq_getD 0 st _ hdst, Option.some_bind,
      load_eq_getD 0 tv _ hsrc, Option.some_bind, store, if_pos hdst]
  · intro t ht
    simp only
    rw [getD_set_eq 0 _ _ _ _ hdst]
    by_cases hc : t.1 * S + t.2 = (i + xc) * S + (j + v)
    · have hpq := (pair_inj ht (by omega)).1 hc
      rw [if_pos hc, if_pos ⟨hpq.1.symm, hpq.2.symm⟩, hc]
    · have hne : ¬ (i + xc = t.1 ∧ j + v = t.2) := by
        rintro ⟨h1, h2⟩
        exact hc (by rw [← h1, ← h2])
      rw [if_neg hc, if_neg hne, add_zero]

/-- The loops over `xc` and `yc` of `deconvolution_Delta` with padding 0: the scaled
filter is added into the window of the result at `(i, j)`. -/
theorem deconvolution_Delta_window [CommRing α] (ans0 : Matrix α) (tv : List α)
    (S fx fy i j : Nat) (hax : ans0.x_len = S) (hay : ans0.y_len = S)
    (htv : tv.length = fx * fy) (hi : i + fx ≤ S) (hj : j + fy ≤ S)
    (r : List α) (hr : r.length = S * S) :
    ∃ r', forLoop 0 fx 1 (fun xc r =>
          forLoop 0 fy 1 (fun yc r =>
            if i + xc < 0 ∨ j + yc < 0 ∨ i + xc ≥ 0 + S ∨ j + yc ≥ 0 + S then some r
            else
              (ans0.getEle (i + xc) (j + yc)).bind fun dst =>
              (load r dst).bind fun old =>
              (load tv (xc * fy + yc)).bind fun v =>
              store r dst (old + v)) r) r = some r'
      ∧ r'.length = S * S
      ∧ ∀ t : Nat × Nat, t.2 < S → r'.getD (t.1 * S + t.2) 0
          = r.getD (t.1 * S + t.2) 0
            + ∑ u ∈ Finset.range fx, ∑ v ∈ Finset.range fy,
                if i + u = t.1 ∧ j + v = t.2 then tv.getD (u * fy + v) 0 else 0 := by
  rw [forLoop_unit]
  refine countLoop_accum _ (fun r : List α => r.length = S * S) (fun t : Nat × Nat => t.2 < S)
    (fun r t => r.getD (t.1 * S + t.2) 0)
    (fun u t => ∑ v ∈ Finset.range fy,
      if i + u = t.1 ∧ j + v = t.2 then tv.getD (u * fy + v) 0 else 0) fx ?_ r hr
  intro u st hu hst
  exact deconvolution_Delta_yc ans0 tv S fx fy i j u hax hay htv hu (by omega) hj st hst

end Matrix

theorem stride_count_mul (n s : Nat) (hn : 1 ≤ n) (hs : 1 ≤ s) :
    (n - 1) * s + 1 ≤ 0 + n * s ∧ ∀ k, k < n → 0 + k * s < (n - 1) * s + 1 := by
  have e : n * s = (n - 1) * s + s := by
    have e1 : n = (n - 1) + 1 := by omega
    conv_lhs => rw [e1]
    ring
  refine ⟨by omega, ?_⟩
  intro k hk
  have h : k * s ≤ (n - 1) * s := Nat.mul_le_mul_right s (by omega)
  omega

namespace Matrix

variable {α : Type}

/-- The loop over `j` of `deconvolution_Delta` with padding 0, for a fixed row `a` of
the gradient. -/
theorem deconvolution_Delta_row [CommRing α] (G F ans0 : Matrix α) (g fl : List α)
    (n S s a : Nat) (hg : G.matrix = some g) (hlg : g.length = G.x_len * G.y_len)
    (hGx : G.x_len = n) (hGy : G.y_len = n)
    (hf : F.matrix = some fl) (hlf : fl.length = F.x_len * F.y_len)
    (hax : ans0.x_len = S) (hay : ans0.y_len = S)
    (hSx : S = (n - 1) * s + F.x_len) (hSy : (n - 1) * s + F.y_len ≤ S)
    (hs : 1 ≤ s) (ha : a < n) (r : List α) (hr : r.length = S * S) :
    ∃ r', forLoop 0 ((n - 1) * s + 1) s (fun j r =>
          (G.read a (j / s)).bind fun tmp =>
          F.pointer.bind fun f =>
          (span f 0 F.size).bind fun fs =>
          forLoop 0 F.x_len 1 (fun xc r =>
            forLoop 0 F.y_len 1 (fun yc r =>
              if a * s + xc < 0 ∨ j + yc < 0 ∨ a * s + xc ≥ 0 + S ∨ j + yc ≥ 0 + S then some r
              else
                (ans0.getEle (a * s + xc) (j + yc)).bind fun dst =>
                (load r dst).bind fun old =>
                (load (avx_vecScale fs tmp) (xc * F.y_len + yc)).bind fun v =>
                store r dst (old + v)) r) r) r = some r'
      ∧ r'.length = S * S
      ∧ ∀ t : Nat × Nat, t.2 < S → r'.getD (t.1 * S + t.2) 0
          = r.getD (t.1 * S + t.2) 0
            + ∑ b ∈ Finset.range n, ∑ u ∈ Finset.range F.x_len, ∑ v ∈ Finset.range F.y_len,
                if a * s + u = t.1 ∧ b * s + v = t.2 then G.entry a b * F.entry u v else 0 := by
  have hn : 1 ≤ n := by omega
  have hspos : 0 < s := by omega
  obtain ⟨hc1, hc2⟩ := stride_count_mul n s hn hs
  rw [forLoop_eq_countLoop _ 0 ((n - 1) * s + 1) s hs n hc1 hc2]
  refine countLoop_accum _ (fun r : List α => r.length = S * S) (fun t : Nat × Nat => t.2 < S)
    (fun r t => r.getD (t.1 * S + t.2) 0)
    (fun b t => ∑ u ∈ Finset.range F.x_len, ∑ v ∈ Finset.range F.y_len,
      if a * s + u = t.1 ∧ b * s + v = t.2 then G.entry a b * F.entry u v else 0) n ?_ r hr
  intro b st hb hst
  have hread : G.read a b = some (G.entry a b) :=
    read_eq_entry G ⟨g, hg, hlg⟩ (by omega) (by omega)
  have htvl : (avx_vecScale fl (G.entry a b)).length = F.x_len * F.y_len := by
    simp [avx_vecScale, hlf]
  have hab : a * s ≤ (n - 1) * s := Nat.mul_le_mul_right s (by omega)
  have hbb : b * s ≤ (n - 1) * s := Nat.mul_le_mul_right s (by omega)
  obtain ⟨r', h1, h2, h3⟩ := deconvolution_Delta_window ans0 (avx_vecScale fl (G.entry a b))
    S F.x_len F.y_len (a * s) (b * s) hax hay htvl (by omega) (by omega) st hst
  refine ⟨r', ?_, h2, ?_⟩
  · have e : 0 + b * s = b * s := Nat.zero_add _
    simp only [e, Nat.mul_div_cancel _ hspos]
    rw [hread, Option.some_bind]
    simp only [pointer, hf, Option.some_bind]
    rw [span_full fl _ (by rw [hlf]; rfl), Option.some_bind]
    exact h1
  · intro t ht
    simp only
    rw [h3 t ht]
    congr 1
    refine Finset.sum_congr rfl (fun u hu => Finset.sum_congr rfl (fun v hv => ?_))
    have hidx : u * F.y_len + v < fl.length := by
      rw [hlf]; exact idx_lt (Finset.mem_range.1 hu) (Finset.mem_range.1 hv)
    rw [avx_vecScale, getD_map_lt _ _ _ _ hidx, entry_eq_getD F fl hf,
      mul_comm (G.entry a b)]

end Matrix

/-- C17: with padding 0 and stride `s ≥ 1`, `deconvolution_Delta` called on a square
`n × n` gradient `G` with a square `f × f` filter `F` and no result supplied completes
and returns the square matrix `D` of side `(n - 1) * s + f` (a `size_t` value) with
`D[r][c]` the sum of `G[a][b] * F[u][v]` over all `a, b < n`, `u, v < f` with
`a * s + u = r` and `b * s + v = c`.  (`G` and `F` are values here, so they are
unchanged.) -/
theorem deconvolution_Delta_spec {α : Type} [CommRing α] (G F : Matrix α) (n f s : Nat)
    (hG : G.WF) (hGx : G.x_len = n) (hGy : G.y_len = n)
    (hF : F.WF) (hFx : F.x_len = f) (hFy : F.y_len = f)
    (hn : 1 ≤ n) (hf1 : 1 ≤ f) (hs : 1 ≤ s) (hfit : (n - 1) * s + f < 2 ^ 64) :
    ∃ D, G.deconvolution_Delta none F 0 s = some D
      ∧ D.x_len = (n - 1) * s + f ∧ D.y_len = (n - 1) * s + f ∧ D.WF
      ∧ ∀ r c, r < (n - 1) * s + f → c < (n - 1) * s + f →
          D.read r c = some (∑ a ∈ Finset.range n, ∑ b ∈ Finset.range n,
            ∑ u ∈ Finset.range f, ∑ v ∈ Finset.range f,
              if a * s + u = r ∧ b * s + v = c then G.entry a b * F.entry u v else 0) := by
  obtain ⟨g, hg, hlg⟩ := hG
  obtain ⟨fl, hf, hlf⟩ := hF
  generalize hS : (n - 1) * s + f = S at hfit ⊢
  have hspos : 0 < s := by omega
  have hw1 : wrap (((G.x_len : Int) - 1) * (s : Int) + (F.x_len : Int) - 2 * ((0 : Nat) : Int))
      = S := by
    have e : ((G.x_len : Int) - 1) * (s : Int) + (F.x_len : Int) - 2 * ((0 : Nat) : Int)
        = ((S : Nat) : Int) := by
      rw [hGx, hFx, ← hS]
      push_cast [Nat.cast_sub hn]
      ring
    rw [e]
    exact wrap_natCast S hfit
  have hw2 : wrap ((S : Int) + 2 * ((0 : Nat) : Int) - (F.x_len : Int) + 1)
      = (n - 1) * s + 1 := by
    have e : (S : Int) + 2 * ((0 : Nat) : Int) - (F.x_len : Int) + 1
        = (((n - 1) * s + 1 : Nat) : Int) := by
      rw [hFx, ← hS]
      push_cast [Nat.cast_sub hn]
      ring
    rw [e]
    exact wrap_natCast ((n - 1) * s + 1) (by omega)
  have hw3 : wrap ((S : Int) + 2 * ((0 : Nat) : Int) - (F.y_len : Int) + 1)
      = (n - 1) * s + 1 := by
    have e : (S : Int) + 2 * ((0 : Nat) : Int) - (F.y_len : Int) + 1
        = (((n - 1) * s + 1 : Nat) : Int) := by
      rw [hFy, ← hS]
      push_cast [Nat.cast_sub hn]
      ring
    rw [e]
    exact wrap_natCast ((n - 1) * s + 1) (by omega)
  obtain ⟨hc1, hc2⟩ := stride_count_mul n s hn hs
  have hloop : ∃ r, forLoop 0 ((n - 1) * s + 1) s (fun i r =>
      forLoop 0 ((n - 1) * s + 1) s (fun j r =>
          (G.read (i / s) (j / s)).bind fun tmp =>
          F.pointer.bind fun f =>
          (span f 0 F.size).bind fun fs =>
          forLoop 0 F.x_len 1 (fun xc r =>
            forLoop 0 F.y_len 1 (fun yc r =>
              if i + xc < 0 ∨ j + yc < 0 ∨ i + xc ≥ 0 + S ∨ j + yc ≥ 0 + S then some r
              else
                ((⟨S, S, some (List.replicate (S * S) 0)⟩ : Matrix α).getEle
                  (i + xc) (j + yc)).bind fun dst =>
                (load r dst).bind fun old =>
                (load (avx_vecScale fs tmp) (xc * F.y_len + yc)).bind fun v =>
                store r dst (old + v)) r) r) r) (List.replicate (S * S) 0) = some r
      ∧ r.length = S * S
      ∧ ∀ t : Nat × Nat, t.2 < S → r.getD (t.1 * S + t.2) 0
          = (List.replicate (S * S) (0 : α)).getD (t.1 * S + t.2) 0
            + ∑ a ∈ Finset.range n, ∑ b ∈ Finset.range n,
              ∑ u ∈ Finset.range F.x_len, ∑ v ∈ Finset.range F.y_len,
                if a * s + u = t.1 ∧ b * s + v = t.2 then G.entry a b * F.entry u v else 0 := by
    rw [forLoop_eq_countLoop _ 0 ((n - 1) * s + 1) s hs n hc1 hc2]
    refine countLoop_accum _ (fun r : List α => r.length = S * S)
      (fun t : Nat × Nat => t.2 < S) (fun r t => r.getD (t.1 * S + t.2) 0)
      (fun a t => ∑ b ∈ Finset.range n, ∑ u ∈ Finset.range F.x_len,
        ∑ v ∈ Finset.range F.y_len,
          if a * s + u = t.1 ∧ b * s + v = t.2 then G.entry a b * F.entry u v else 0)
      n ?_ _ (by simp)
    intro a st ha hst
    obtain ⟨r', h1, h2, h3⟩ := Matrix.deconvolution_Delta_row G F
      (⟨S, S, some (List.replicate (S * S) 0)⟩ : Matrix α) g fl n S s a hg hlg hGx hGy hf hlf
      rfl rfl (by rw [hFx, hS]) (by rw [hFy, hS]) hs ha st hst
    refine ⟨r', ?_, h2, h3⟩
    have e : 0 + a * s = a * s := Nat.zero_add _
    simp only [e, Nat.mul_div_cancel _ hspos]
    exact h1
  obtain ⟨r, hr, hlen, hval⟩ := hloop
  refine ⟨⟨S, S, some r⟩, ?_, rfl, rfl, ⟨r, rfl, hlen⟩, ?_⟩
  · unfold Matrix.deconvolution_Delta
    simp only [Option.getD_none]
    rw [hw1, Matrix.zeroInit_eq _ (Matrix.new_WF _ _)]
    simp only [Option.some_bind, Matrix.new, hw2, hw3]
    rw [hr]
    rfl
  · intro p q hp hq
    rw [Matrix.read_eq_entry (⟨S, S, some r⟩ : Matrix α) ⟨r, rfl, hlen⟩ hp hq]
    congr 1
    show r.getD (p * S + q) 0 = _
    rw [hval (p, q) hq, getD_replicate_zero, zero_add, hFx, hFy]

/-- C17, at a concrete input: a 2 × 2 gradient, a 2 × 2 filter, stride 1. -/
theorem deconvolution_Delta_spec_witness :
    (∃ D, (⟨2, 2, some [1, 2, 3, 4]⟩ : Matrix Int).deconvolution_Delta none
          ⟨2, 2, some [1, 10, 100, 1000]⟩ 0 1 = some D
      ∧ D.x_len = (2 - 1) * 1 + 2 ∧ D.y_len = (2 - 1) * 1 + 2 ∧ D.WF
      ∧ ∀ r c, r < (2 - 1) * 1 + 2 → c < (2 - 1) * 1 + 2 →
          D.read r c = some (∑ a ∈ Finset.range 2, ∑ b ∈ Finset.range 2,
            ∑ u ∈ Finset.range 2, ∑ v ∈ Finset.range 2,
              if a * 1 + u = r ∧ b * 1 + v = c
              then (⟨2, 2, some [1, 2, 3, 4]⟩ : Matrix Int).entry a b
                * (⟨2, 2, some [1, 10, 100, 1000]⟩ : Matrix Int).entry u v else 0))
    ∧ (⟨2, 2, some [1, 2, 3, 4]⟩ : Matrix Int).deconvolution_Delta none
          ⟨2, 2, some [1, 10, 100, 1000]⟩ 0 1
        = some ⟨3, 3, some [1, 12, 20, 103, 1234, 2040, 300, 3400, 4000]⟩ :=
  ⟨deconvolution_Delta_spec ⟨2, 2, some [1, 2, 3, 4]⟩ ⟨2, 2, some [1, 10, 100, 1000]⟩ 2 2 1
      ⟨_, rfl, rfl⟩ rfl rfl ⟨_, rfl, rfl⟩ rfl rfl (by decide) (by decide) (by decide)
      (by decide),
    by decide⟩

/-- A loop whose round `k` writes `x k` to position `base + k` fills the positions
`base, ..., base + n - 1` and leaves the others. -/
theorem countLoop_fill_row {α : Type} (d : α) (f : Nat → List α → Option (List α))
    (L base n : Nat) (x : Nat → α) (hL : base + n ≤ L)
    (hstep : ∀ k st, k < n → st.length = L → f k st = some (st.set (base + k) (x k)))
    (st : List α) (hst : st.length = L) :
    ∃ st', countLoop f n 0 st = some st' ∧ st'.length = L
      ∧ ∀ t, st'.getD t d = if base ≤ t ∧ t < base + n then x (t - base) else st.getD t d := by
  refine countLoop_inv f (fun (k : Nat) (st' : List α) => st'.length = L
      ∧ ∀ t, st'.getD t d = if base ≤ t ∧ t < base + k then x (t - base) else st.getD t d)
    n ?_ n 0 st (by omega) ⟨hst, by intro t; rw [if_neg (by omega)]⟩
  rintro k st1 hk ⟨hlen, hval⟩
  refine ⟨_, hstep k st1 hk hlen, by simp [hlen], ?_⟩
  intro t
  rw [getD_set_eq d _ _ _ _ (by omega)]
  by_cases ht : t = base + k
  · subst ht
    rw [if_pos rfl, if_pos (by omega)]
    congr 1
    omega
  · rw [if_neg ht, hval t]
    by_cases hc : base ≤ t ∧ t < base + k
    · rw [if_pos hc, if_pos (by omega)]
    · rw [if_neg hc, if_neg (by omega)]

/-- A loop whose round `u` fills the `u`-th row of width `w` fills every row. -/
theorem countLoop_fill_rows {α : Type} (d : α) (f : Nat → List α → Option (List α))
    (L m w : Nat) (x : Nat → Nat → α)
    (hstep : ∀ u st, u < m → st.length = L → ∃ st', f u st = some st' ∧ st'.length = L
      ∧ ∀ t, st'.getD t d
          = if u * w ≤ t ∧ t < u * w + w then x u (t - u * w) else st.getD t d)
    (st : List α) (hst : st.length = L) :
    ∃ st', countLoop f m 0 st = some st' ∧ st'.length = L
      ∧ ∀ u v, u < m → v < w → st'.getD (u * w + v) d = x u v := by
  have key := countLoop_inv f (fun (k : Nat) (st' : List α) => st'.length = L
      ∧ ∀ u v, u < k → v < w → st'.getD (u * w + v) d = x u v)
    m ?_ m 0 st (by omega) ⟨hst, by intro u v hu; omega⟩
  · exact key
  · rintro k st1 hk ⟨hlen, hval⟩
    obtain ⟨st2, h1, h2, h3⟩ := hstep k st1 hk hlen
    refine ⟨st2, h1, h2, ?_⟩
    intro u v hu hv
    rw [h3 (u * w + v)]
    by_cases huk : u = k
    · subst huk
      rw [if_pos (by omega)]
      congr 1
      omega
    · have hc : ¬ (k * w ≤ u * w + v ∧ u * w + v < k * w + w) :=
        fun h => huk ((row_iff hv).1 h)
      rw [if_neg hc]
      exact hval u v (by omega) hv

namespace Matrix

variable {α : Type}

/-- The two loops of `deconvolution_Filter` that gather the receptive field at `(i, j)`
of the input into the scratch buffer, with padding 0 and an input that has at least
as many rows as columns. -/
theorem deconvolution_Filter_patch [Zero α] (W I : Matrix α) (hI : I.WF) (i j : Nat)
    (hi : i + W.x_len ≤ I.x_len) (hj : j + W.y_len ≤ I.y_len) (hyx : I.y_len ≤ I.x_len) :
    ∃ tv, forLoop 0 W.x_len 1 (fun xc tmp_vec =>
          forLoop 0 W.y_len 1 (fun yc tmp_vec =>
            if i + xc < 0 ∨ j + yc < 0 ∨ i + xc ≥ 0 + I.x_len ∨ j + yc ≥ 0 + I.x_len
            then some tmp_vec
            else
              (I.read (i + xc) (j + yc)).bind fun v =>
              store tmp_vec (xc * W.y_len + yc) v) tmp_vec)
          (List.replicate W.size 0) = some tv
      ∧ tv.length = W.x_len * W.y_len
      ∧ ∀ u v, u < W.x_len → v < W.y_len →
          tv.getD (u * W.y_len + v) 0 = I.entry (i + u) (j + v) := by
  rw [forLoop_unit]
  refine countLoop_fill_rows 0 _ (W.x_len * W.y_len) W.x_len W.y_len
    (fun u v => I.entry (i + u) (j + v)) ?_ _ (by simp [size])
  intro u st hu hst
  rw [forLoop_unit]
  refine countLoop_fill_row 0 _ (W.x_len * W.y_len) (u * W.y_len) W.y_len
    (fun v => I.entry (i + u) (j + v)) ?_ ?_ st hst
  · have h1 : (u + 1) * W.y_len ≤ W.x_len * W.y_len := Nat.mul_le_mul_right _ hu
    have e : (u + 1) * W.y_len = u * W.y_len + W.y_len := by ring
    omega
  · intro v st1 hv hst1
    have hskip : ¬ (i + u < 0 ∨ j + v < 0 ∨ i + u ≥ 0 + I.x_len ∨ j + v ≥ 0 + I.x_len) := by
      omega
    have hdst : u * W.y_len + v < st1.length := by rw [hst1]; exact idx_lt hu hv
    rw [if_neg hskip, read_eq_entry I hI (by omega) (by omega), Option.some_bind, store,
      if_pos hdst]

end Matrix

namespace Matrix

variable {α : Type}

/-- One round of the outer loops of `deconvolution_Filter` with padding 0: the gathered
patch, scaled by the gradient value, is added to the filter gradient. -/
theorem deconvolution_Filter_round [CommRing α] (G W I fd : Matrix α) (s a b : Nat)
    (hG : G.WF) (hI : I.WF) (ha : a < G.x_len) (hb : b < G.y_len)
    (hi : a * s + W.x_len ≤ I.x_len) (hj : b * s + W.y_len ≤ I.y_len)
    (hyx : I.y_len ≤ I.x_len)
    (hfd : fd.x_len = W.x_len ∧ fd.y_len = W.y_len ∧ fd.WF) :
    ∃ fd', ((G.read a b).bind fun tmp =>
        (forLoop 0 W.x_len 1 (fun xc tmp_vec =>
          forLoop 0 W.y_len 1 (fun yc tmp_vec =>
            if a * s + xc < 0 ∨ b * s + yc < 0 ∨ a * s + xc ≥ 0 + I.x_len
                ∨ b * s + yc ≥ 0 + I.x_len then some tmp_vec
            else
              (I.read (a * s + xc) (b * s + yc)).bind fun v =>
              store tmp_vec (xc * W.y_len + yc) v) tmp_vec)
          (List.replicate W.size 0)).bind fun tmp_vec =>
        fd.pointer.bind fun w =>
        (span w 0 tmp_vec.length).bind fun ws =>
        (storeSpan w 0 (avx_vecScalerAdd ws tmp_vec tmp)).bind fun w' =>
        some { fd with matrix := some w' }) = some fd'
      ∧ (fd'.x_len = W.x_len ∧ fd'.y_len = W.y_len ∧ fd'.WF)
      ∧ ∀ t : Nat × Nat, t.1 < W.x_len ∧ t.2 < W.y_len →
          fd'.entry t.1 t.2 = fd.entry t.1 t.2 + G.entry a b * I.entry (a * s + t.1) (b * s + t.2) := by
  obtain ⟨hfdx, hfdy, w, hw, hlw⟩ := hfd
  rw [hfdx, hfdy] at hlw
  obtain ⟨tv, h1, h2, h3⟩ := deconvolution_Filter_patch W I hI (a * s) (b * s) hi hj hyx
  have hzl : (avx_vecScalerAdd w tv (G.entry a b)).length = W.x_len * W.y_len := by
    simp [avx_vecScalerAdd, hlw, h2]
  refine ⟨⟨fd.x_len, fd.y_len, some (avx_vecScalerAdd w tv (G.entry a b))⟩, ?_,
    ⟨hfdx, hfdy, _, rfl, by rw [hzl, hfdx, hfdy]⟩, ?_⟩
  · rw [read_eq_entry G hG ha hb, Option.some_bind, h1, Option.some_bind]
    simp only [pointer, hw, Option.some_bind]
    rw [span_full w _ (by rw [hlw, h2]), Option.some_bind,
      storeSpan_full w _ (by rw [hzl, hlw]), Option.some_bind]
  · rintro t ⟨hu, hv⟩
    have hidx : t.1 * W.y_len + t.2 < W.x_len * W.y_len := idx_lt hu hv
    rw [entry_eq_getD _ _ rfl, entry_eq_getD fd w hw]
    show (avx_vecScalerAdd w tv (G.entry a b)).getD (t.1 * fd.y_len + t.2) 0 = _
    rw [hfdy, avx_vecScalerAdd,
      getD_zipWith_lt _ _ _ _ _ (by rw [hlw]; exact hidx) (by rw [h2]; exact hidx),
      h3 t.1 t.2 hu hv, mul_comm (G.entry a b)]

end Matrix

/-- C18: with padding 0, stride `s ≥ 1`, an input `I` of shape `x × y` with `y ≤ x`
(`x` a `size_t` value), a filter gradient `W` of shape `fx × fy` with `1 ≤ fx ≤ x`,
`1 ≤ fy ≤ y`, and a gradient `G` of shape `((x - fx) / s + 1) × ((y - fy) / s + 1)`,
`G.deconvolution_Filter(W, I, 0, s)` completes and changes `W[u][v]` to
`W[u][v] + Σ G[a][b] * I[a * s + u][b * s + v]`: the prior contents are kept and
added to. -/
theorem deconvolution_Filter_spec {α : Type} [CommRing α] (G W I : Matrix α) (s : Nat)
    (hG : G.WF) (hW : W.WF) (hI : I.WF) (hyx : I.y_len ≤ I.x_len)
    (hfx1 : 1 ≤ W.x_len) (hfx : W.x_len ≤ I.x_len)
    (hfy1 : 1 ≤ W.y_len) (hfy : W.y_len ≤ I.y_len)
    (hGx : G.x_len = (I.x_len - W.x_len) / s + 1)
    (hGy : G.y_len = (I.y_len - W.y_len) / s + 1)
    (hs : 1 ≤ s) (hfit : I.x_len < 2 ^ 64) :
    ∃ W', G.deconvolution_Filter W I 0 s = some W'
      ∧ W'.x_len = W.x_len ∧ W'.y_len = W.y_len ∧ W'.WF
      ∧ ∀ u v, u < W.x_len → v < W.y_len →
          W'.read u v = some (W.entry u v
            + ∑ a ∈ Finset.range G.x_len, ∑ b ∈ Finset.range G.y_len,
                G.entry a b * I.entry (a * s + u) (b * s + v)) := by
  have hspos : 0 < s := by omega
  have hw1 : wrap ((I.x_len : Int) + 2 * ((0 : Nat) : Int) - (W.x_len : Int) + 1)
      = (I.x_len - W.x_len) + 1 := by
    have e : (I.x_len : Int) + 2 * ((0 : Nat) : Int) - (W.x_len : Int) + 1
        = (((I.x_len - W.x_len) + 1 : Nat) : Int) := by
      push_cast [Nat.cast_sub hfx]
      ring
    rw [e]
    exact wrap_natCast ((I.x_len - W.x_len) + 1) (by omega)
  have hw2 : wrap ((I.y_len : Int) + 2 * ((0 : Nat) : Int) - (W.y_len : Int) + 1)
      = (I.y_len - W.y_len) + 1 := by
    have e : (I.y_len : Int) + 2 * ((0 : Nat) : Int) - (W.y_len : Int) + 1
        = (((I.y_len - W.y_len) + 1 : Nat) : Int) := by
      push_cast [Nat.cast_sub hfy]
      ring
    rw [e]
    exact wrap_natCast ((I.y_len - W.y_len) + 1) (by omega)
  obtain ⟨hx1, hx2⟩ := stride_count (I.x_len - W.x_len) s hs
  obtain ⟨hy1, hy2⟩ := stride_count (I.y_len - W.y_len) s hs
  have hloop : ∃ fd, forLoop 0 ((I.x_len - W.x_len) + 1) s (fun i fd =>
      forLoop 0 ((I.y_len - W.y_len) + 1) s (fun j fd =>
        (G.read (i / s) (j / s)).bind fun tmp =>
        (forLoop 0 W.x_len 1 (fun xc tmp_vec =>
          forLoop 0 W.y_len 1 (fun yc tmp_vec =>
            if i + xc < 0 ∨ j + yc < 0 ∨ i + xc ≥ 0 + I.x_len
                ∨ j + yc ≥ 0 + I.x_len then some tmp_vec
            else
              (I.read (i + xc) (j + yc)).bind fun v =>
              store tmp_vec (xc * W.y_len + yc) v) tmp_vec)
          (List.replicate W.size 0)).bind fun tmp_vec =>
        fd.pointer.bind fun w =>
        (span w 0 tmp_vec.length).bind fun ws =>
        (storeSpan w 0 (avx_vecScalerAdd ws tmp_vec tmp)).bind fun w' =>
        some { fd with matrix := some w' }) fd) W = some fd
      ∧ (fd.x_len = W.x_len ∧ fd.y_len = W.y_len ∧ fd.WF)
      ∧ ∀ t : Nat × Nat, t.1 < W.x_len ∧ t.2 < W.y_len →
          fd.entry t.1 t.2 = W.entry t.1 t.2
            + ∑ a ∈ Finset.range G.x_len, ∑ b ∈ Finset.range G.y_len,
                G.entry a b * I.entry (a * s + t.1) (b * s + t.2) := by
    rw [forLoop_eq_countLoop _ 0 ((I.x_len - W.x_len) + 1) s hs _ hx1 hx2, ← hGx]
    refine countLoop_accum _ (fun fd : Matrix α => fd.x_len = W.x_len ∧ fd.y_len = W.y_len ∧ fd.WF)
      (fun t : Nat × Nat => t.1 < W.x_len ∧ t.2 < W.y_len) (fun fd t => fd.entry t.1 t.2)
      (fun a t => ∑ b ∈ Finset.range G.y_len, G.entry a b * I.entry (a * s + t.1) (b * s + t.2))
      G.x_len ?_ W ⟨rfl, rfl, hW⟩
    intro a fd ha hfd
    have ea : 0 + a * s = a * s := Nat.zero_add _
    simp only [ea, Nat.mul_div_cancel _ hspos]
    rw [forLoop_eq_countLoop _ 0 ((I.y_len - W.y_len) + 1) s hs _ hy1 hy2, ← hGy]
    refine countLoop_accum _ (fun fd : Matrix α => fd.x_len = W.x_len ∧ fd.y_len = W.y_len ∧ fd.WF)
      (fun t : Nat × Nat => t.1 < W.x_len ∧ t.2 < W.y_len) (fun fd t => fd.entry t.1 t.2)
      (fun b t => G.entry a b * I.entry (a * s + t.1) (b * s + t.2))
      G.y_len ?_ fd hfd
    intro b fd1 hb hfd1
    have eb : 0 + b * s = b * s := Nat.zero_add _
    simp only [eb, Nat.mul_div_cancel _ hspos]
    have hia : a * s ≤ I.x_len - W.x_len := by
      have h1 : a * s ≤ (I.x_len - W.x_len) / s * s := Nat.mul_le_mul_right s (by omega)
      have h2 := Nat.div_mul_le_self (I.x_len - W.x_len) s
      omega
    have hjb : b * s ≤ I.y_len - W.y_len := by
      have h1 : b * s ≤ (I.y_len - W.y_len) / s * s := Nat.mul_le_mul_right s (by omega)
      have h2 := Nat.div_mul_le_self (I.y_len - W.y_len) s
      omega
    exact Matrix.deconvolution_Filter_round G W I fd1 s a b hG hI ha hb (by omega) (by omega)
      hyx hfd1
  obtain ⟨fd, h1, ⟨h2, h3, h4⟩, h5⟩ := hloop
  refine ⟨fd, ?_, h2, h3, h4, ?_⟩
  · unfold Matrix.deconvolution_Filter
    simp only [hw1, hw2]
    exact h1
  · intro u v hu hv
    rw [Matrix.read_eq_entry fd h4 (by omega) (by omega)]
    congr 1
    exact h5 (u, v) ⟨hu, hv⟩

/-- C18, at a concrete input: a 2 × 2 input, a 1 × 1 filter gradient, stride 1. -/
theorem deconvolution_Filter_spec_witness :
    (∃ W', (⟨2, 2, some [1, 1, 1, 1]⟩ : Matrix Int).deconvolution_Filter ⟨1, 1, some [5]⟩
          ⟨2, 2, some [1, 2, 3, 4]⟩ 0 1 = some W'
      ∧ W'.x_len = 1 ∧ W'.y_len = 1 ∧ W'.WF
      ∧ ∀ u v, u < 1 → v < 1 →
          W'.read u v = some ((⟨1, 1, some [5]⟩ : Matrix Int).entry u v
            + ∑ a ∈ Finset.range 2, ∑ b ∈ Finset.range 2,
                (⟨2, 2, some [1, 1, 1, 1]⟩ : Matrix Int).entry a b
                  * (⟨2, 2, some [1, 2, 3, 4]⟩ : Matrix Int).entry (a * 1 + u) (b * 1 + v)))
    ∧ (⟨2, 2, some [1, 1, 1, 1]⟩ : Matrix Int).deconvolution_Filter ⟨1, 1, some [5]⟩
          ⟨2, 2, some [1, 2, 3, 4]⟩ 0 1 = some ⟨1, 1, some [15]⟩ :=
  ⟨deconvolution_Filter_spec ⟨2, 2, some [1, 1, 1, 1]⟩ ⟨1, 1, some [5]⟩
      ⟨2, 2, some [1, 2, 3, 4]⟩ 1 ⟨_, rfl, rfl⟩ ⟨_, rfl, rfl⟩ ⟨_, rfl, rfl⟩ (by decide)
      (by decide) (by decide) (by decide) (by decide) rfl rfl (by decide) (by decide),
    by decide⟩

end LightCTR
